import Mathlib

/-!
Verification development for the real-time chat backbone.

The definitions below are a shallow embedding of the backend sources:

* `backend/services/chatService.js` — the batch writer (`handleMessage`,
  `handleBulkMessages`, `flushMessageBuffer`) and the history read path
  (`loadMessages`, `loadMessagesFromRedis`, `loadMessagesFromDB`);
* `backend/models/Message.js` — `findRoomMessages`;
* `backend/adapters/OptimizedRedisAdapter.js` — the per-process room
  subscription bookkeeping (`subscribeToRoom`, `unsubscribeFromRoom`,
  `handleDisconnect`, `checkRoomUnsubscription`);
* `backend/sockets/chat.js` — duplicate-login handoff, the `joinRoom` /
  `leaveRoom` handlers, `extractAIMentions` and `handleAIResponse`.

Redis structures are modelled explicitly: the per-room recency index is
the set of `(room, timestamp)` pairs put there by `ZADD` (the member of
the sorted set is the timestamp rendered as a string, the score is the
timestamp, so the set is keyed by timestamp), and the per-message
payload cache maps a `(room, timestamp)` key to the stored message.
The mongo collection is a list of messages in insertion order.
Asynchronous interleaving around the awaited `bulkWrite` of
`flushMessageBuffer` is modelled by keeping batches that have been taken
out of the buffer but whose bulk write has not resolved yet in an
`inflight` pool.
-/

namespace ChatSpec

/-- A chat message as assembled by `ChatService.handleMessage` and the
callers of `handleBulkMessages`: room id, type, content, optional sender
id, optional AI kind, timestamp in milliseconds, and the soft-delete
flag of the Message model (false on creation). Enrichment (resolving the
sender or file ids into summaries) does not change any of these fields,
so it is not modelled. -/
structure Msg where
  room : String
  mtype : String
  content : String
  sender : Option String := none
  aiType : Option String := none
  timestamp : Nat
  isDeleted : Bool := false
deriving DecidableEq, Repr

/-- Combined state of the durable message store (the mongo collection,
in insertion order), the redis cache (per-room recency index plus
per-message payload keys), the in-memory `messageBuffer` of
`ChatService`, and the pool of batches taken by an in-flight
`flushMessageBuffer` call whose `bulkWrite` has not resolved yet. -/
structure SState where
  store : List Msg
  cacheIdx : List (String × Nat)
  cachePay : List ((String × Nat) × Msg)
  buffer : List Msg
  inflight : List (List Msg)
deriving DecidableEq, Repr

/-- Empty initial state: nothing durable, nothing cached, empty buffer. -/
def chatInit : SState := ⟨[], [], [], [], []⟩

/-- `ZADD roomKey ts ts`: the member is the timestamp string, so adding
an already-present timestamp leaves the set unchanged. -/
def zaddIdx (room : String) (ts : Nat) (idx : List (String × Nat)) : List (String × Nat) :=
  if (room, ts) ∈ idx then idx else (room, ts) :: idx

/-- `SET chat:message:room:ts payload`: overwrites any previous value at
the same key. -/
def setPay (room : String) (ts : Nat) (m : Msg) (pay : List ((String × Nat) × Msg)) :
    List ((String × Nat) × Msg) :=
  ((room, ts), m) :: pay.filter (fun p => p.1 ≠ (room, ts))

/-- The cache mirroring of a single message (zadd into the room recency
index plus SET of the payload key), shared by the inline pipeline of
`handleMessage` and the per-batch pipeline of `flushMessageBuffer`. -/
def cacheOne (m : Msg) (st : SState) : SState :=
  { st with cacheIdx := zaddIdx m.room m.timestamp st.cacheIdx,
            cachePay := setPay m.room m.timestamp m st.cachePay }

/-- `ChatService.handleMessage`: the message is written to the redis
cache first (zadd of its timestamp plus SET of its payload key) and only
then pushed onto the in-memory buffer; the durable write happens later,
in `flushMessageBuffer`. There is no capacity check on the buffer. -/
def handleMessage (m : Msg) (st : SState) : SState :=
  let st1 := cacheOne m st
  { st1 with buffer := st1.buffer ++ [m] }

/-- `ChatService.handleBulkMessages`: appends the batch to the buffer
with no cache write and no capacity check. -/
def handleBulkMessages (ms : List Msg) (st : SState) : SState :=
  { st with buffer := st.buffer ++ ms }

/-- First half of `ChatService.flushMessageBuffer`, up to the awaited
`bulkWrite`: the whole buffer is copied out and the buffer is reset to
empty, so messages submitted while the bulk write is pending land in a
fresh buffer. -/
def flushBegin (st : SState) : SState :=
  { st with buffer := [], inflight := st.buffer :: st.inflight }

/-- Resolution of `flushMessageBuffer` when `Message.bulkWrite`
succeeds: the batch is appended to the durable store and only then
mirrored into the cache by the redis pipeline. -/
def flushCommit (b : List Msg) (st : SState) : SState :=
  let st1 := { st with store := st.store ++ b, inflight := st.inflight.erase b }
  b.foldl (fun s m => cacheOne m s) st1

/-- Resolution of `flushMessageBuffer` when `Message.bulkWrite` throws:
the catch block runs `this.messageBuffer.push(...messages)`, appending
the saved batch to the END of the current buffer; nothing reaches the
store or the cache. -/
def flushAbort (b : List Msg) (st : SState) : SState :=
  { st with buffer := st.buffer ++ b, inflight := st.inflight.erase b }

/-- One step of the submit/flush system: a `handleMessage` submit, a
`handleBulkMessages` submit, the start of a flush (only fires on a
non-empty buffer, as `flushMessageBuffer` returns early otherwise), and
the successful or failing resolution of a pending bulk write. -/
inductive ChatStep : SState → SState → Prop where
  | submit (m : Msg) (st : SState) : ChatStep st (handleMessage m st)
  | bulk (ms : List Msg) (st : SState) : ChatStep st (handleBulkMessages ms st)
  | fbegin (st : SState) : st.buffer ≠ [] → ChatStep st (flushBegin st)
  | fcommit (b : List Msg) (st : SState) : b ∈ st.inflight → ChatStep st (flushCommit b st)
  | fabort (b : List Msg) (st : SState) : b ∈ st.inflight → ChatStep st (flushAbort b st)

/-- States reachable from the empty state by submit/flush steps. -/
inductive ChatReach : SState → Prop where
  | init : ChatReach chatInit
  | step {s t : SState} : ChatReach s → ChatStep s t → ChatReach t

/-- The flush-only fragment of the step relation: the three phases of
`flushMessageBuffer`, with no submit interleaved. -/
inductive FlushStep : SState → SState → Prop where
  | fbegin (st : SState) : st.buffer ≠ [] → FlushStep st (flushBegin st)
  | fcommit (b : List Msg) (st : SState) : b ∈ st.inflight → FlushStep st (flushCommit b st)
  | fabort (b : List Msg) (st : SState) : b ∈ st.inflight → FlushStep st (flushAbort b st)

/-- Durability-before-visibility as claimed: every cached payload is
already present in the durable store. -/
def cacheDurable (st : SState) : Prop :=
  ∀ p ∈ st.cachePay, p.2 ∈ st.store

instance (st : SState) : Decidable (cacheDurable st) := by
  unfold cacheDurable; infer_instance

/-- A fixed concrete message used in several concrete runs. -/
def msgA : Msg :=
  { room := "R1", mtype := "text", content := "hello", sender := some "u1", timestamp := 1000 }

/-- A second concrete message, submitted while a flush is pending. -/
def msgB : Msg :=
  { room := "R1", mtype := "text", content := "world", sender := some "u2", timestamp := 1001 }

theorem cachePay_cacheOne (m : Msg) (st : SState) (p : (String × Nat) × Msg) :
    p ∈ (cacheOne m st).cachePay → p = ((m.room, m.timestamp), m) ∨ p ∈ st.cachePay := by
  intro hp
  simp only [cacheOne, setPay, List.mem_cons] at hp
  rcases hp with h | h
  · exact Or.inl h
  · exact Or.inr (List.mem_of_mem_filter h)

theorem store_cacheOne (m : Msg) (st : SState) : (cacheOne m st).store = st.store := rfl

theorem cacheMany_spec (b : List Msg) (st : SState) :
    (b.foldl (fun s m => cacheOne m s) st).store = st.store ∧
    ∀ p ∈ (b.foldl (fun s m => cacheOne m s) st).cachePay,
      (∃ m ∈ b, p = ((m.room, m.timestamp), m)) ∨ p ∈ st.cachePay := by
  induction b generalizing st with
  | nil => exact ⟨rfl, fun p hp => Or.inr hp⟩
  | cons m ms ih =>
    simp only [List.foldl_cons]
    refine ⟨(ih (cacheOne m st)).1.trans (store_cacheOne m st), ?_⟩
    intro p hp
    rcases (ih (cacheOne m st)).2 p hp with ⟨m0, hm0, hpe⟩ | hmem
    · exact Or.inl ⟨m0, List.mem_cons_of_mem m hm0, hpe⟩
    · rcases cachePay_cacheOne m st p hmem with h | h
      · exact Or.inl ⟨m, List.mem_cons_self m ms, h⟩
      · exact Or.inr h

/-- Insertion of a timestamp into a descending-sorted list. -/
def insertDesc (x : Nat) : List Nat → List Nat
  | [] => [x]
  | y :: ys => if y ≤ x then x :: y :: ys else y :: insertDesc x ys

/-- Descending sort of timestamps, the order in which
`ZREVRANGEBYSCORE` returns members. -/
def sortDesc : List Nat → List Nat
  | [] => []
  | x :: xs => insertDesc x (sortDesc xs)

theorem length_insertDesc (x : Nat) (l : List Nat) :
    (insertDesc x l).length = l.length + 1 := by
  induction l with
  | nil => rfl
  | cons y ys ih =>
    simp only [insertDesc]
    split
    · simp
    · simp [ih]

theorem length_sortDesc (l : List Nat) : (sortDesc l).length = l.length := by
  induction l with
  | nil => rfl
  | cons x xs ih => simp [sortDesc, length_insertDesc, ih]

theorem mem_insertDesc {a x : Nat} {l : List Nat} :
    a ∈ insertDesc x l ↔ a = x ∨ a ∈ l := by
  induction l with
  | nil => simp [insertDesc]
  | cons y ys ih =>
    simp only [insertDesc]
    split
    · simp
    · simp [ih]; tauto

theorem mem_sortDesc {a : Nat} {l : List Nat} : a ∈ sortDesc l ↔ a ∈ l := by
  induction l with
  | nil => simp [sortDesc]
  | cons x xs ih => simp [sortDesc, mem_insertDesc, ih]

/-- Insertion of a message into a list sorted by descending timestamp. -/
def insertMsgDesc (m : Msg) : List Msg → List Msg
  | [] => [m]
  | y :: ys => if y.timestamp ≤ m.timestamp then m :: y :: ys else y :: insertMsgDesc m ys

/-- Sort of messages by descending timestamp, the order of
`.sort(\x7b timestamp: -1 \x7d)` in the mongo queries. -/
def sortMsgsDesc : List Msg → List Msg
  | [] => []
  | m :: ms => insertMsgDesc m (sortMsgsDesc ms)

theorem length_insertMsgDesc (m : Msg) (l : List Msg) :
    (insertMsgDesc m l).length = l.length + 1 := by
  induction l with
  | nil => rfl
  | cons y ys ih =>
    simp only [insertMsgDesc]
    split
    · simp
    · simp [ih]

theorem length_sortMsgsDesc (l : List Msg) : (sortMsgsDesc l).length = l.length := by
  induction l with
  | nil => rfl
  | cons m ms ih => simp [sortMsgsDesc, length_insertMsgDesc, ih]

theorem mem_insertMsgDesc {a m : Msg} {l : List Msg} :
    a ∈ insertMsgDesc m l ↔ a = m ∨ a ∈ l := by
  induction l with
  | nil => simp [insertMsgDesc]
  | cons y ys ih =>
    simp only [insertMsgDesc]
    split
    · simp
    · simp [ih]; tauto

theorem mem_sortMsgsDesc {a : Msg} {l : List Msg} : a ∈ sortMsgsDesc l ↔ a ∈ l := by
  induction l with
  | nil => simp [sortMsgsDesc]
  | cons m ms ih => simp [sortMsgsDesc, mem_insertMsgDesc, ih]

/-- Javascript falsiness of the `before` cursor: `null`, `undefined` and
`0` all disable the bound, both in `before || '+inf'`
(`loadMessagesFromRedis`) and in `...(before && \x7b ... \x7d)`
(`findRoomMessages`). -/
def jsCursor : Option Nat → Option Nat
  | none => none
  | some n => if n = 0 then none else some n

/-- Scores present in the recency index of a room. -/
def roomScores (st : SState) (room : String) : List Nat :=
  (st.cacheIdx.filter (fun p => p.1 == room)).map (fun p => p.2)

/-- `ZREVRANGEBYSCORE roomKey max -inf LIMIT 0 cnt`: members with score
at most `max` — the bound is INCLUSIVE — in descending score order,
limited to the first `cnt`. -/
def zrevrangebyscore (st : SState) (room : String) (maxTs : Option Nat) (cnt : Nat) :
    List Nat :=
  let scores := sortDesc (roomScores st room)
  let bounded := match maxTs with
    | none => scores
    | some b => scores.filter (fun ts => ts ≤ b)
  bounded.take cnt

/-- `GET chat:message:room:ts`. -/
def getPay (st : SState) (room : String) (ts : Nat) : Option Msg :=
  st.cachePay.lookup (room, ts)

/-- `ChatService.loadMessagesFromRedis`: a range scan of the recency
index with `max = before` (inclusive; `+inf` when the cursor is absent
or `0`) and `LIMIT 0 (limit+1)`; `null` when the index scan comes back
empty; payload fetches whose misses are silently dropped from the
result. Re-enrichment of cached messages does not change the fields
modelled here. -/
def loadMessagesFromRedis (st : SState) (room : String) (before : Option Nat) (limit : Nat) :
    Option (List Msg) :=
  let tss := zrevrangebyscore st room (jsCursor before) (limit + 1)
  if tss = [] then none
  else some (tss.filterMap (fun ts => getPay st room ts))

/-- The mongo query filter of `MessageSchema.statics.findRoomMessages`:
same room, not soft-deleted, and timestamp STRICTLY below the cursor
when a (truthy) cursor is given. -/
def matchesRoomQuery (room : String) (before : Option Nat) (m : Msg) : Bool :=
  m.room == room && !m.isDeleted &&
    (match jsCursor before with
     | none => true
     | some b => decide (m.timestamp < b))

/-- `MessageSchema.statics.findRoomMessages`: the filtered messages
sorted by descending timestamp and limited to `limit` — the query asks
for `limit` documents, not `limit + 1`. `loadMessagesFromDB` only adds
enrichment on top of this. -/
def findRoomMessages (st : SState) (room : String) (before : Option Nat) (limit : Nat) :
    List Msg :=
  (sortMsgsDesc (st.store.filter (matchesRoomQuery room before))).take limit

/-- The value returned by `ChatService.loadMessages`. -/
structure LoadResult where
  messages : List Msg
  hasMore : Bool
  oldestTimestamp : Option Nat
deriving DecidableEq, Repr

/-- The final packaging step of `loadMessages`: the page is
`messages.slice(0, limit)`, while `hasMore` and `oldestTimestamp` are
computed from the UNSLICED list (`messages.length > limit` and
`messages[messages.length - 1]?.timestamp`). -/
def pageOf (msgs : List Msg) (limit : Nat) : LoadResult :=
  { messages := msgs.take limit,
    hasMore := decide (limit < msgs.length),
    oldestTimestamp := msgs.getLast?.map (fun m => m.timestamp) }

/-- `ChatService.loadMessages`: redis is consulted first; when it yields
`null` or fewer than `limit` messages the DB fallback REPLACES the whole
list (requesting only `limit` documents); the result is packaged by
`pageOf`. Cache repopulation after the fallback is fire-and-forget and
does not affect the returned value, so it is not modelled. -/
def loadMessages (st : SState) (room : String) (before : Option Nat) (limit : Nat) :
    LoadResult :=
  match loadMessagesFromRedis st room before limit with
  | some msgs =>
      if msgs.length < limit then pageOf (findRoomMessages st room before limit) limit
      else pageOf msgs limit
  | none => pageOf (findRoomMessages st room before limit) limit

/-- Number of stored, non-deleted messages of a room older than the
cursor — the "total remaining" of the pagination claims. -/
def remainingCount (st : SState) (room : String) (before : Option Nat) : Nat :=
  (st.store.filter (matchesRoomQuery room before)).length

/-- C1, counterexample. The claim asserts that in no reachable state of
the submit/flush step relation does the cache contain a message that is
not yet in the durable store. A single `handleMessage` submit from the
empty state refutes it: `handleMessage` mirrors the message into the
cache (recency index entry and payload key) immediately, while the
durable bulk write only happens at the next flush, so the reached state
has the message cached and the store still empty. -/
theorem cache_visible_before_durable_cex :
    ChatReach (handleMessage msgA chatInit) ∧ ¬ cacheDurable (handleMessage msgA chatInit) :=
  ⟨ChatReach.step ChatReach.init (ChatStep.submit msgA chatInit), by decide⟩

/-- C1, amended. Restricted to the flush phases of the step relation the
claimed ordering does hold: any payload that becomes cache-visible
through a flush step is already in the durable store of the resulting
state (`flushMessageBuffer` mirrors a batch into the cache only after
its `bulkWrite` has committed, and a failed bulk write adds nothing to
the cache). The original claim fails only because `handleMessage`
additionally caches each message at submit time, before durability. -/
theorem flush_caches_only_durable (st st2 : SState) (hs : FlushStep st st2)
    (p : (String × Nat) × Msg) (hin : p ∈ st2.cachePay) (hnew : p ∉ st.cachePay) :
    p.2 ∈ st2.store := by
  cases hs with
  | fbegin st h =>
    exact absurd hin hnew
  | fcommit b st hb =>
    have hspec := cacheMany_spec b
      { st with store := st.store ++ b, inflight := st.inflight.erase b }
    have hstore : (flushCommit b st).store = st.store ++ b := hspec.1
    rcases hspec.2 p hin with ⟨m, hm, hpe⟩ | hold
    · rw [hstore]
      subst hpe
      exact List.mem_append_right _ hm
    · exact absurd hold hnew
  | fabort b st hb =>
    exact absurd hin hnew

/-- C1 witness: committing the singleton batch `[msgA]` from a state
where it is in flight makes its payload cache-visible and durable. -/
theorem flush_caches_only_durable_witness :
    msgA ∈ (flushCommit [msgA] ⟨[], [], [], [], [[msgA]]⟩).store :=
  flush_caches_only_durable ⟨[], [], [], [], [[msgA]]⟩ _
    (FlushStep.fcommit [msgA] _ (by decide)) ((("R1", 1000), msgA)) (by decide) (by decide)

/-- C2, counterexample. The claim says a failed batch is pushed back to
the FRONT of the buffer, ahead of messages submitted meanwhile. In the
code the catch block appends it to the END: submit `msgA`, start a
flush (taking the batch `[msgA]`), submit `msgB` while the bulk write is
pending, and let the bulk write fail — the buffer ends up `[msgB, msgA]`
with the failed batch BEHIND the message submitted meanwhile, not
`[msgA, msgB]` as claimed. The state is reachable by the step
relation. -/
theorem failed_flush_requeues_at_back_cex :
    ChatReach (flushAbort [msgA] (handleMessage msgB (flushBegin (handleMessage msgA chatInit)))) ∧
    (flushAbort [msgA] (handleMessage msgB (flushBegin (handleMessage msgA chatInit)))).buffer
      = [msgB, msgA] ∧
    (flushAbort [msgA] (handleMessage msgB (flushBegin (handleMessage msgA chatInit)))).buffer
      ≠ [msgA, msgB] := by
  refine ⟨?_, by decide, by decide⟩
  exact ChatReach.step
    (ChatReach.step
      (ChatReach.step
        (ChatReach.step ChatReach.init (ChatStep.submit msgA chatInit))
        (ChatStep.fbegin _ (by decide)))
      (ChatStep.submit msgB _))
    (ChatStep.fabort [msgA] _ (by decide))

/-- C2, amended. When the bulk write of a flush fails, the entire batch
is appended to the BACK of the buffer (behind messages submitted
meanwhile): the new buffer is exactly the old buffer followed by the
batch, so no message of the batch is dropped (multiplicities add up),
and retrying with a successful flush persists every message of the
batch exactly once more in the durable store (occurrence counts in the
store grow by exactly the counts in the batch; for a message not yet in
the store that appears once in the batch this is exactly once). -/
theorem failed_flush_requeue_then_commit (st : SState) (b : List Msg) (hb : b ∈ st.inflight) :
    (flushAbort b st).buffer = st.buffer ++ b ∧
    (∀ m : Msg, ((flushAbort b st).buffer.count m = st.buffer.count m + b.count m)) ∧
    (flushCommit (flushAbort b st).buffer (flushBegin (flushAbort b st))).store
      = st.store ++ (st.buffer ++ b) ∧
    (∀ m : Msg,
      (flushCommit (flushAbort b st).buffer (flushBegin (flushAbort b st))).store.count m
        = st.store.count m + st.buffer.count m + b.count m) := by
  have hstore :
      (flushCommit (flushAbort b st).buffer (flushBegin (flushAbort b st))).store
        = st.store ++ (st.buffer ++ b) := by
    have h := (cacheMany_spec (flushAbort b st).buffer
      { flushBegin (flushAbort b st) with
          store := (flushBegin (flushAbort b st)).store ++ (flushAbort b st).buffer,
          inflight := (flushBegin (flushAbort b st)).inflight.erase (flushAbort b st).buffer }).1
    simpa [flushCommit, flushAbort, flushBegin] using h
  refine ⟨rfl, ?_, hstore, ?_⟩
  · intro m; simp [flushAbort, List.count_append]
  · intro m; rw [hstore]; simp [List.count_append]; omega

/-- C2 witness: from a state with batch `[msgA]` in flight and `msgB`
already waiting in the buffer, the failed flush leaves `[msgB, msgA]`
and the retry persists both messages, each exactly once. -/
theorem failed_flush_requeue_then_commit_witness :
    (flushAbort [msgA] ⟨[], [], [], [msgB], [[msgA]]⟩).buffer = [msgB] ++ [msgA] ∧
    (flushCommit (flushAbort [msgA] ⟨[], [], [], [msgB], [[msgA]]⟩).buffer
        (flushBegin (flushAbort [msgA] ⟨[], [], [], [msgB], [[msgA]]⟩))).store.count msgA
      = 1 := by
  have h := failed_flush_requeue_then_commit ⟨[], [], [], [msgB], [[msgA]]⟩ [msgA] (by decide)
  refine ⟨h.1, ?_⟩
  rw [h.2.2.2 msgA]
  decide

/-- A run in which every flush attempt fails: each round submits one
message, starts a flush of the whole buffer and has its bulk write
throw, so the batch is requeued. This is the "writer persistently
failing" scenario of the backpressure claim. -/
def failRun : Nat → SState
  | 0 => chatInit
  | n + 1 =>
      let st := failRun n
      flushAbort (handleMessage msgA st).buffer (flushBegin (handleMessage msgA st))

theorem failRun_spec (n : Nat) :
    ChatReach (failRun n) ∧ (failRun n).buffer.length = n ∧ (failRun n).inflight = [] := by
  induction n with
  | zero => exact ⟨ChatReach.init, rfl, rfl⟩
  | succ n ih =>
    obtain ⟨hreach, hlen, hinf⟩ := ih
    have hne : (handleMessage msgA (failRun n)).buffer ≠ [] := by
      simp [handleMessage, cacheOne]
    have hmem :
        (handleMessage msgA (failRun n)).buffer
          ∈ (flushBegin (handleMessage msgA (failRun n))).inflight := by
      simp [flushBegin]
    refine ⟨?_, ?_, ?_⟩
    · exact ChatReach.step
        (ChatReach.step
          (ChatReach.step hreach (ChatStep.submit msgA (failRun n)))
          (ChatStep.fbegin _ hne))
        (ChatStep.fabort _ _ hmem)
    · simp [failRun, flushAbort, flushBegin, handleMessage, cacheOne, hlen]
    · simp [failRun, flushAbort, flushBegin, handleMessage, cacheOne,
        List.erase_cons_head, hinf]

/-- C9: there is no cap on the in-memory message buffer. First,
`handleMessage` appends to the buffer unconditionally — no state ever
rejects a submit, the buffer always grows by exactly one. Second, under
persistently failing bulk writes the buffer length reaches every bound
in reachable states. This contradicts the claim (and the spec's
backpressure requirement) that submits are rejected with a retryable
error once a cap is reached. -/
theorem no_buffer_cap_submit_always_accepted :
    (∀ (st : SState) (m : Msg), (handleMessage m st).buffer = st.buffer ++ [m]) ∧
    (∀ (st : SState) (ms : List Msg), (handleBulkMessages ms st).buffer = st.buffer ++ ms) ∧
    (∀ n : Nat, ∃ st : SState, ChatReach st ∧ st.buffer.length = n) := by
  refine ⟨fun st m => rfl, fun st ms => rfl, fun n => ⟨failRun n, ?_, ?_⟩⟩
  · exact (failRun_spec n).1
  · exact (failRun_spec n).2.1

theorem length_filterMap_of_isSome {α β : Type} (f : α → Option β) (l : List α)
    (h : ∀ a ∈ l, (f a).isSome) : (l.filterMap f).length = l.length := by
  induction l with
  | nil => rfl
  | cons a as ih =>
    obtain ⟨b, hb⟩ := Option.isSome_iff_exists.mp (h a (List.mem_cons_self a as))
    rw [List.filterMap_cons, hb]
    simp only [List.length_cons]
    rw [ih (fun x hx => h x (List.mem_cons_of_mem a hx))]

theorem length_findRoomMessages (st : SState) (room : String) (before : Option Nat)
    (limit : Nat) : (findRoomMessages st room before limit).length ≤ limit := by
  simp [findRoomMessages]

/-- Concrete read-path fixture: three stored messages in room `R`,
timestamps 1, 2, 3, none deleted, and an empty cache. -/
def mR1 : Msg := { room := "R", mtype := "text", content := "a", timestamp := 1 }

/-- Second fixture message. -/
def mR2 : Msg := { room := "R", mtype := "text", content := "b", timestamp := 2 }

/-- Third fixture message. -/
def mR3 : Msg := { room := "R", mtype := "text", content := "c", timestamp := 3 }

/-- Store with three messages of room `R` and nothing cached. -/
def stDb3 : SState := ⟨[mR1, mR2, mR3], [], [], [], []⟩

/-- C3, counterexample. With an empty cache and three stored messages,
`loadMessages` with `limit = 2` falls back to the DB, which requests
only `limit` documents (`findRoomMessages` has no `limit + 1`), so
`hasMore` comes out `false` even though only 2 of the 3 remaining
messages were returned — refuting both the claimed biconditional and
the claim that a room with more than `limit` remaining messages yields
`hasMore = true` on the DB-fallback path. -/
theorem hasMore_false_despite_more_cex :
    (loadMessages stDb3 "R" none 2).hasMore = false ∧
    (loadMessages stDb3 "R" none 2).messages.length = 2 ∧
    remainingCount stDb3 "R" none = 3 ∧
    ¬ ((loadMessages stDb3 "R" none 2).hasMore = false ↔
       (loadMessages stDb3 "R" none 2).messages.length = remainingCount stDb3 "R" none) := by
  refine ⟨by decide, by decide, by decide, ?_⟩
  intro h
  have := h.mp (by decide)
  revert this
  decide

/-- Helper: `hasMore = true` can only come from the cache path, with a
redis fetch of more than `limit` messages; on the DB-fallback path
`hasMore` is always `false` (the fallback fetches only `limit`
documents), even when more than `limit` messages remain. -/
theorem hasMore_true_only_from_cache (st : SState) (room : String) (before : Option Nat)
    (limit : Nat) (h : (loadMessages st room before limit).hasMore = true) :
    ∃ l, loadMessagesFromRedis st room before limit = some l ∧ limit < l.length := by
  cases hr : loadMessagesFromRedis st room before limit with
  | none =>
    have hres : loadMessages st room before limit
        = pageOf (findRoomMessages st room before limit) limit := by
      unfold loadMessages; rw [hr]
    rw [hres] at h
    have hle := length_findRoomMessages st room before limit
    simp only [pageOf, decide_eq_true_eq] at h
    omega
  | some msgs =>
    by_cases hlt : msgs.length < limit
    · have hres : loadMessages st room before limit
          = pageOf (findRoomMessages st room before limit) limit := by
        unfold loadMessages; rw [hr]; simp [hlt]
      rw [hres] at h
      have hle := length_findRoomMessages st room before limit
      simp only [pageOf, decide_eq_true_eq] at h
      omega
    · have hres : loadMessages st room before limit = pageOf msgs limit := by
        unfold loadMessages; rw [hr]; simp [hlt]
      rw [hres] at h
      simp only [pageOf, decide_eq_true_eq] at h
      exact ⟨msgs, hr ▸ rfl, h⟩

/-- Helper: when the cache fully reflects the room's stored,
non-deleted messages — the sorted recency index equals the sorted
timestamps of exactly those messages, and every indexed timestamp has a
live payload — the claimed biconditional holds for a cursorless call:
`hasMore = false` iff the number of messages returned equals the total
number of remaining messages. -/
theorem hasMore_iff_complete_of_cache_coherent (st : SState) (room : String) (limit : Nat)
    (H1 : sortDesc (roomScores st room)
          = (sortMsgsDesc (st.store.filter (matchesRoomQuery room none))).map
              (fun m => m.timestamp))
    (H2 : ∀ ts ∈ roomScores st room, (getPay st room ts).isSome) :
    ((loadMessages st room none limit).hasMore = false ↔
      (loadMessages st room none limit).messages.length = remainingCount st room none) := by
  have hTlen : (sortMsgsDesc (st.store.filter (matchesRoomQuery room none))).length
      = remainingCount st room none := by
    rw [length_sortMsgsDesc]; rfl
  set T := remainingCount st room none with hT
  have hscores : (sortDesc (roomScores st room)).length = T := by
    rw [H1, List.length_map, hTlen]
  have htss : zrevrangebyscore st room (jsCursor none) (limit + 1)
      = (sortDesc (roomScores st room)).take (limit + 1) := rfl
  have htlen : (zrevrangebyscore st room (jsCursor none) (limit + 1)).length
      = (limit + 1) ⊓ T := by
    rw [htss, List.length_take, hscores]
  have hdb : (findRoomMessages st room none limit).length = limit ⊓ T := by
    simp only [findRoomMessages, List.length_take, hTlen]
  unfold loadMessages loadMessagesFromRedis
  by_cases hempty : zrevrangebyscore st room (jsCursor none) (limit + 1) = []
  · have hT0 : T = 0 := by
      have := htlen
      rw [hempty] at this
      simp at this
      omega
    simp only [hempty, if_pos rfl]
    simp only [pageOf, decide_eq_false_iff_not, not_lt]
    constructor
    · intro _
      have h1 : (findRoomMessages st room none limit).length = 0 := by omega
      simp [List.length_take, h1, hT0]
    · intro _
      have := length_findRoomMessages st room none limit
      simp [List.length_take]
      omega
  · have hfm : ((zrevrangebyscore st room (jsCursor none) (limit + 1)).filterMap
        (fun ts => getPay st room ts)).length = (limit + 1) ⊓ T := by
      rw [length_filterMap_of_isSome]
      · exact htlen
      · intro ts hts
        apply H2
        rw [htss] at hts
        exact mem_sortDesc.mp (List.mem_of_mem_take hts)
    simp only [hempty, if_neg, ite_false]
    by_cases hshort : ((zrevrangebyscore st room (jsCursor none) (limit + 1)).filterMap
        (fun ts => getPay st room ts)).length < limit
    · have hTlt : T < limit := by rw [hfm] at hshort; omega
      rw [if_pos hshort]
      simp only [pageOf, decide_eq_false_iff_not, not_lt, List.length_take, hdb]
      constructor
      · intro _; omega
      · intro _; omega
    · rw [if_neg hshort]
      rw [hfm] at hshort
      simp only [pageOf, decide_eq_false_iff_not, not_lt, List.length_take, hfm]
      constructor
      · intro h; omega
      · intro h; omega

/-- Coherent fixture: two stored messages of room `R`, both present in
the recency index and the payload cache. -/
def stCoh2 : SState :=
  ⟨[mR1, mR2], [("R", 1), ("R", 2)], [(("R", 1), mR1), (("R", 2), mR2)], [], []⟩

/-- Coherent fixture: three stored messages of room `R`, all cached. -/
def stCoh3 : SState :=
  ⟨[mR1, mR2, mR3], [("R", 1), ("R", 2), ("R", 3)],
    [(("R", 1), mR1), (("R", 2), mR2), (("R", 3), mR3)], [], []⟩

/-- C3, amended. Conjunction of the two provable halves: (a) for every
call, `hasMore = true` arises only on the cache path, from a redis
fetch of more than `limit` messages — on the DB-fallback path `hasMore`
is always `false` because `findRoomMessages` requests only `limit`
documents, even when more than `limit` messages remain; (b) when the
cache fully reflects the room's stored, non-deleted messages, the
claimed biconditional holds for a cursorless call: `hasMore = false`
iff the returned count equals the total remaining count (so exactly
`limit` remaining gives `hasMore = false` and more than `limit`
remaining gives `hasMore = true`). -/
theorem loadMessages_hasMore_amended (st : SState) (room : String) (limit : Nat)
    (H1 : sortDesc (roomScores st room)
          = (sortMsgsDesc (st.store.filter (matchesRoomQuery room none))).map
              (fun m => m.timestamp))
    (H2 : ∀ ts ∈ roomScores st room, (getPay st room ts).isSome) :
    (∀ (st2 : SState) (room2 : String) (before : Option Nat) (lim : Nat),
        (loadMessages st2 room2 before lim).hasMore = true →
        ∃ l, loadMessagesFromRedis st2 room2 before lim = some l ∧ lim < l.length) ∧
    ((loadMessages st room none limit).hasMore = false ↔
      (loadMessages st room none limit).messages.length = remainingCount st room none) :=
  ⟨fun st2 room2 before lim h => hasMore_true_only_from_cache st2 room2 before lim h,
   hasMore_iff_complete_of_cache_coherent st room limit H1 H2⟩

/-- C3 witness: a coherent state with exactly two cached-and-stored
messages and `limit = 2` satisfies the amended biconditional (with
`hasMore = false`), and the universally quantified half applies to a
coherent state whose cache holds three messages with `limit = 2`. -/
theorem loadMessages_hasMore_amended_witness :
    (((loadMessages stCoh2 "R" none 2).hasMore = false ↔
        (loadMessages stCoh2 "R" none 2).messages.length = remainingCount stCoh2 "R" none) ∧
      (loadMessages stCoh2 "R" none 2).hasMore = false) ∧
    ∃ l, loadMessagesFromRedis stCoh3 "R" none 2 = some l ∧ 2 < l.length := by
  have h := loadMessages_hasMore_amended stCoh2 "R" 2 (by decide) (by decide)
  exact ⟨⟨h.2, by decide⟩, h.1 stCoh3 "R" none 2 (by decide)⟩

theorem lookup_mem {α β : Type} [BEq α] [LawfulBEq α] {l : List (α × β)} {k : α} {v : β}
    (h : l.lookup k = some v) : (k, v) ∈ l := by
  induction l with
  | nil => simp [List.lookup] at h
  | cons p ps ih =>
    obtain ⟨a, b⟩ := p
    simp only [List.lookup] at h
    cases hbeq : (k == a) with
    | true =>
      rw [hbeq] at h
      simp only [Option.some.injEq] at h
      have hk : k = a := eq_of_beq hbeq
      subst hk; subst h
      exact List.mem_cons_self _ _
    | false =>
      rw [hbeq] at h
      exact List.mem_cons_of_mem _ (ih h)

theorem length_zrevrangebyscore (st : SState) (room : String) (maxTs : Option Nat)
    (cnt : Nat) : (zrevrangebyscore st room maxTs cnt).length ≤ cnt := by
  unfold zrevrangebyscore
  cases maxTs <;> simp [List.length_take]

theorem fromRedis_length_le (st : SState) (room : String) (before : Option Nat)
    (limit : Nat) (l : List Msg)
    (hl : loadMessagesFromRedis st room before limit = some l) : l.length ≤ limit + 1 := by
  simp only [loadMessagesFromRedis] at hl
  split at hl
  · simp at hl
  · have he := Option.some.inj hl
    calc l.length = ((zrevrangebyscore st room (jsCursor before) (limit + 1)).filterMap
            (fun ts => getPay st room ts)).length := by rw [he]
      _ ≤ (zrevrangebyscore st room (jsCursor before) (limit + 1)).length :=
            List.length_filterMap_le _ _
      _ ≤ limit + 1 := length_zrevrangebyscore st room _ _

theorem mem_fromRedis_le (st : SState) (room : String) (b : Nat) (limit : Nat)
    (l : List Msg) (hb : b ≠ 0) (Hwf : ∀ p ∈ st.cachePay, p.2.timestamp = p.1.2)
    (hl : loadMessagesFromRedis st room (some b) limit = some l) :
    ∀ m ∈ l, m.timestamp ≤ b := by
  have hc : jsCursor (some b) = some b := by simp [jsCursor, hb]
  simp only [loadMessagesFromRedis] at hl
  split at hl
  · simp at hl
  · have he := Option.some.inj hl
    intro m hm
    rw [← he] at hm
    obtain ⟨ts, hts, hget⟩ := List.mem_filterMap.mp hm
    unfold getPay at hget
    have hmem : ((room, ts), m) ∈ st.cachePay := lookup_mem hget
    have hts2 : m.timestamp = ts := Hwf ((room, ts), m) hmem
    rw [hc] at hts
    unfold zrevrangebyscore at hts
    have hts3 := List.mem_of_mem_take hts
    have hts4 := List.of_mem_filter hts3
    simp only [decide_eq_true_eq] at hts4
    omega

theorem loadMessages_eq_pageOf (st : SState) (room : String) (before : Option Nat)
    (limit : Nat) : ∃ l, loadMessages st room before limit = pageOf l limit := by
  unfold loadMessages
  cases loadMessagesFromRedis st room before limit with
  | none => exact ⟨_, rfl⟩
  | some msgs =>
    by_cases h : msgs.length < limit
    · exact ⟨findRoomMessages st room before limit, if_pos h⟩
    · exact ⟨msgs, if_neg h⟩

theorem pageOf_oldest_of_not_hasMore (l : List Msg) (n : Nat)
    (h : (pageOf l n).hasMore = false) :
    (pageOf l n).oldestTimestamp
      = ((pageOf l n).messages.getLast?).map (fun m => m.timestamp) := by
  simp only [pageOf, decide_eq_false_iff_not, not_lt] at h ⊢
  rw [List.take_of_length_le h]

/-- Cache fixture for room `R`: four cached messages, timestamps 7 to
10, nothing durable. -/
def mS7 : Msg := { room := "R", mtype := "text", content := "g", timestamp := 7 }

/-- Cache fixture message, timestamp 8. -/
def mS8 : Msg := { room := "R", mtype := "text", content := "h", timestamp := 8 }

/-- Cache fixture message, timestamp 9. -/
def mS9 : Msg := { room := "R", mtype := "text", content := "i", timestamp := 9 }

/-- Cache fixture message, timestamp 10. -/
def mS10 : Msg := { room := "R", mtype := "text", content := "j", timestamp := 10 }

/-- State whose recency index and payload cache hold the four fixture
messages of room `R`. -/
def stC4 : SState :=
  ⟨[], [("R", 7), ("R", 8), ("R", 9), ("R", 10)],
    [(("R", 7), mS7), (("R", 8), mS8), (("R", 9), mS9), (("R", 10), mS10)], [], []⟩

/-- C4, counterexample. For `loadMessages("R", before = 10, limit = 2)`
on the cached fixture: (a) the returned page contains the message with
timestamp exactly 10 — `ZREVRANGEBYSCORE` treats `before` as an
INCLUSIVE bound, refuting "strictly less than beforeTimestamp" on the
cache path; (b) the returned `oldestTimestamp` is 8, the timestamp of
the `limit+1`-th fetched message, while no message of the returned page
has timestamp 8 (the page's actual oldest is 9), refuting "equals the
timestamp of the oldest message actually contained in the returned
page". -/
theorem loadMessages_cursor_and_oldest_cex :
    (mS10 ∈ (loadMessages stC4 "R" (some 10) 2).messages ∧ ¬ (mS10.timestamp < 10)) ∧
    (loadMessages stC4 "R" (some 10) 2).oldestTimestamp = some 8 ∧
    (∀ m ∈ (loadMessages stC4 "R" (some 10) 2).messages, m.timestamp ≠ 8) := by
  refine ⟨⟨by decide, by decide⟩, by decide, by decide⟩

/-- C4, amended. For every call with a (truthy) cursor: every message
of the returned page has timestamp at most `before` — inclusive on the
cache path, while the DB query (`findRoomMessages`) is strict; at most
`limit` messages are returned; when `hasMore = false` the returned
`oldestTimestamp` is the timestamp of the oldest message of the page
itself; when `hasMore = true` the redis fetch had exactly `limit + 1`
messages, the page is its first `limit`, and `oldestTimestamp` is the
timestamp of the last FETCHED message — the one excluded from the page,
serving as the continuation cursor. -/
theorem loadMessages_page_bounds (st : SState) (room : String) (b : Nat) (limit : Nat)
    (hb : b ≠ 0) (Hwf : ∀ p ∈ st.cachePay, p.2.timestamp = p.1.2) :
    (∀ m ∈ (loadMessages st room (some b) limit).messages, m.timestamp ≤ b) ∧
    (∀ m ∈ findRoomMessages st room (some b) limit, m.timestamp < b) ∧
    (loadMessages st room (some b) limit).messages.length ≤ limit ∧
    ((loadMessages st room (some b) limit).hasMore = false →
      (loadMessages st room (some b) limit).oldestTimestamp
        = ((loadMessages st room (some b) limit).messages.getLast?).map
            (fun m => m.timestamp)) ∧
    ((loadMessages st room (some b) limit).hasMore = true →
      ∃ l, loadMessagesFromRedis st room (some b) limit = some l ∧
        l.length = limit + 1 ∧
        (loadMessages st room (some b) limit).messages = l.take limit ∧
        (loadMessages st room (some b) limit).oldestTimestamp
          = l.getLast?.map (fun m => m.timestamp)) := by
  have hdbStrict : ∀ m ∈ findRoomMessages st room (some b) limit, m.timestamp < b := by
    intro m hm
    have hm2 := mem_sortMsgsDesc.mp (List.mem_of_mem_take hm)
    have hq := List.of_mem_filter hm2
    simp only [matchesRoomQuery, jsCursor] at hq
    rw [if_neg hb] at hq
    simp only [Bool.and_eq_true, decide_eq_true_eq] at hq
    exact hq.2
  refine ⟨?_, hdbStrict, ?_, ?_, ?_⟩
  · intro m hm
    cases hr : loadMessagesFromRedis st room (some b) limit with
    | none =>
      have hres : loadMessages st room (some b) limit
          = pageOf (findRoomMessages st room (some b) limit) limit := by
        unfold loadMessages; rw [hr]
      rw [hres] at hm
      have := hdbStrict m (List.mem_of_mem_take hm)
      omega
    | some msgs =>
      by_cases hlt : msgs.length < limit
      · have hres : loadMessages st room (some b) limit
            = pageOf (findRoomMessages st room (some b) limit) limit := by
          unfold loadMessages; rw [hr]; simp [hlt]
        rw [hres] at hm
        have := hdbStrict m (List.mem_of_mem_take hm)
        omega
      · have hres : loadMessages st room (some b) limit = pageOf msgs limit := by
          unfold loadMessages; rw [hr]; simp [hlt]
        rw [hres] at hm
        exact mem_fromRedis_le st room b limit msgs hb Hwf hr m (List.mem_of_mem_take hm)
  · obtain ⟨l, hres⟩ := loadMessages_eq_pageOf st room (some b) limit
    rw [hres]
    simp [pageOf]
  · intro h
    obtain ⟨l, hres⟩ := loadMessages_eq_pageOf st room (some b) limit
    rw [hres] at h ⊢
    exact pageOf_oldest_of_not_hasMore l limit h
  · intro h
    obtain ⟨l, hl, hlen⟩ := hasMore_true_only_from_cache st room (some b) limit h
    have hub := fromRedis_length_le st room (some b) limit l hl
    have hexact : l.length = limit + 1 := by omega
    have hres : loadMessages st room (some b) limit = pageOf l limit := by
      unfold loadMessages; rw [hl]; simp [Nat.not_lt.mpr (Nat.le_of_lt hlen)]
    exact ⟨l, hl, hexact, by rw [hres]; rfl, by rw [hres]; rfl⟩

/-- C4 witness: the amended bounds instantiated on the cached fixture
with `before = 10`, `limit = 2`; the page has two messages, each with
timestamp at most 10, and since `hasMore = true` the fetch had exactly
three messages whose last one supplies `oldestTimestamp`. -/
theorem loadMessages_page_bounds_witness :
    (∀ m ∈ (loadMessages stC4 "R" (some 10) 2).messages, m.timestamp ≤ 10) ∧
    (loadMessages stC4 "R" (some 10) 2).messages.length ≤ 2 := by
  have h := loadMessages_page_bounds stC4 "R" 10 2 (by decide) (by decide)
  exact ⟨h.1, h.2.2.1⟩

/-- Per-process state of `OptimizedRedisAdapter`: `socketRooms` (socket
id to the set of rooms that socket joined), `subscribedRooms` (rooms the
process holds a transport subscription for), and the keys of
`roomSubscriptionCache` holding `true`. -/
structure AdapterState where
  socketRooms : List (String × List String)
  subscribedRooms : List String
  subCache : List String
deriving DecidableEq, Repr

/-- Adapter state of a freshly started process. -/
def adapterInit : AdapterState := ⟨[], [], []⟩

/-- `Map.set` on an association list: replaces the first binding of the
key, appending a new binding when the key is absent. -/
def setSock {β : Type} (k : String) (v : β) : List (String × β) → List (String × β)
  | [] => [(k, v)]
  | p :: ps => if p.1 = k then (k, v) :: ps else p :: setSock k v ps

/-- `Map.delete` on an association list. -/
def delSock {β : Type} (k : String) : List (String × β) → List (String × β)
  | [] => []
  | p :: ps => if p.1 = k then ps else p :: delSock k ps

/-- The `isRoomInUse` / `hasSubscribers` scan over
`this.socketRooms.values()`: does any socket's room set hold the room? -/
def roomInUse (m : List (String × List String)) (room : String) : Bool :=
  m.any (fun p => decide (room ∈ p.2))

/-- `socketRooms.add(room)` on a javascript Set: append if absent. -/
def addRoom (room : String) (sr : List String) : List String :=
  if room ∈ sr then sr else sr ++ [room]

/-- The socket-set mutation at the head of `subscribeToRoom`: the room
is added to the socket's set (a fresh set when the socket is unknown,
as `handleRoomJoin` passes `this.socketRooms.get(socketId) || new
Set()` and stores it back). -/
def subAdd (sid room : String) (a : AdapterState) : AdapterState :=
  { a with socketRooms :=
      setSock sid (addRoom room ((a.socketRooms.lookup sid).getD [])) a.socketRooms }

/-- `OptimizedRedisAdapter.subscribeToRoom` as reached through
`handleRoomJoin`: the room is added to the socket's set first; a truthy
`roomSubscriptionCache` entry short-circuits everything else; otherwise,
when the room is not yet in `subscribedRooms`, the transport subscribe
runs and the room is recorded in `subscribedRooms` and the cache. -/
def subscribeToRoom (sid room : String) (a : AdapterState) : AdapterState :=
  if room ∈ a.subCache then subAdd sid room a
  else if room ∈ a.subscribedRooms then subAdd sid room a
  else { subAdd sid room a with
           subscribedRooms := a.subscribedRooms ++ [room],
           subCache := a.subCache ++ [room] }

/-- The socket-set mutation at the head of `unsubscribeFromRoom`:
`socketRooms.delete(room)` on the socket's set. -/
def unsubRemove (sid room : String) (sr : List String) (a : AdapterState) : AdapterState :=
  { a with socketRooms := setSock sid (sr.erase room) a.socketRooms }

/-- `OptimizedRedisAdapter.unsubscribeFromRoom` as reached through
`handleRoomLeave`: nothing happens for an unknown socket id; otherwise
the room is removed from the socket's set and, when no socket set still
holds the room and the room is subscribed, the transport unsubscribe
runs and both `subscribedRooms` and the cache drop the room. -/
def unsubscribeFromRoom (sid room : String) (a : AdapterState) : AdapterState :=
  match a.socketRooms.lookup sid with
  | none => a
  | some sr =>
      if roomInUse (unsubRemove sid room sr a).socketRooms room = false
          ∧ room ∈ a.subscribedRooms then
        { unsubRemove sid room sr a with
            subscribedRooms := a.subscribedRooms.erase room,
            subCache := a.subCache.erase room }
      else unsubRemove sid room sr a

/-- `OptimizedRedisAdapter.checkRoomUnsubscription`: unsubscribe when no
socket set holds the room; NOTE it never clears the subscription
cache. -/
def checkRoomUnsubscription (room : String) (a : AdapterState) : AdapterState :=
  if roomInUse a.socketRooms room = false ∧ room ∈ a.subscribedRooms then
    { a with subscribedRooms := a.subscribedRooms.erase room }
  else a

/-- `OptimizedRedisAdapter.handleDisconnect`: runs
`checkRoomUnsubscription` for each of the socket's rooms BEFORE deleting
the socket's own `socketRooms` entry, so the scan still counts the
disconnecting socket itself. -/
def handleDisconnect (sid : String) (a : AdapterState) : AdapterState :=
  let a2 := match a.socketRooms.lookup sid with
    | none => a
    | some rooms => rooms.foldl (fun acc r => checkRoomUnsubscription r acc) a
  { a2 with socketRooms := delSock sid a2.socketRooms }

/-- Full step relation of the adapter: subscribe, unsubscribe and
socket disconnect. -/
inductive AdapterStep : AdapterState → AdapterState → Prop where
  | sub (sid room : String) (a : AdapterState) : AdapterStep a (subscribeToRoom sid room a)
  | unsub (sid room : String) (a : AdapterState) : AdapterStep a (unsubscribeFromRoom sid room a)
  | disc (sid : String) (a : AdapterState) : AdapterStep a (handleDisconnect sid a)

/-- Adapter states reachable from a fresh process by the full step
relation. -/
inductive AdapterReach : AdapterState → Prop where
  | init : AdapterReach adapterInit
  | step {a b : AdapterState} : AdapterReach a → AdapterStep a b → AdapterReach b

/-- The subscribe/unsubscribe fragment of the step relation. -/
inductive SubUnsubStep : AdapterState → AdapterState → Prop where
  | sub (sid room : String) (a : AdapterState) : SubUnsubStep a (subscribeToRoom sid room a)
  | unsub (sid room : String) (a : AdapterState) : SubUnsubStep a (unsubscribeFromRoom sid room a)

/-- Adapter states reachable by subscribe/unsubscribe steps only. -/
inductive SubUnsubReach : AdapterState → Prop where
  | init : SubUnsubReach adapterInit
  | step {a b : AdapterState} : SubUnsubReach a → SubUnsubStep a b → SubUnsubReach b

/-- Keys of an association-list map. -/
def keysOf {β : Type} (m : List (String × β)) : List String := m.map (fun p => p.1)

/-- Some socket OTHER than `sid` holds the room. -/
def usedExcept (m : List (String × List String)) (sid room : String) : Prop :=
  ∃ p ∈ m, p.1 ≠ sid ∧ room ∈ p.2

theorem roomInUse_iff {m : List (String × List String)} {x : String} :
    roomInUse m x = true ↔ ∃ p ∈ m, x ∈ p.2 := by
  simp [roomInUse, List.any_eq_true]

theorem lookup_setSock_self {β : Type} (k : String) (v : β)
    (m : List (String × β)) : (setSock k v m).lookup k = some v := by
  induction m with
  | nil => simp [setSock, List.lookup]
  | cons p ps ih =>
    by_cases h : p.1 = k
    · simp [setSock, h, List.lookup]
    · have hbeq : (k == p.1) = false := by
        simp only [beq_eq_false_iff_ne]; exact fun he => h he.symm
      simp [setSock, h, List.lookup, hbeq, ih]

theorem lookup_setSock_ne {β : Type} {k q : String} (v : β)
    (m : List (String × β)) (h : q ≠ k) :
    (setSock k v m).lookup q = m.lookup q := by
  induction m with
  | nil =>
    have hbeq : (q == k) = false := by simpa using h
    simp [setSock, List.lookup, hbeq]
  | cons p ps ih =>
    by_cases hp : p.1 = k
    · have hqk : (q == k) = false := by simpa using h
      have hbeq : (q == p.1) = false := by rw [hp]; exact hqk
      simp [setSock, hp, List.lookup, hqk, hbeq]
    · simp only [setSock, if_neg hp, List.lookup]
      cases hq : (q == p.1) with
      | true => rfl
      | false => exact ih

theorem setSock_eq_of_lookup {β : Type} {k : String} {v : β}
    {m : List (String × β)} (h : m.lookup k = some v) : setSock k v m = m := by
  induction m with
  | nil => simp [List.lookup] at h
  | cons p ps ih =>
    by_cases hp : p.1 = k
    · have hbeq : (k == p.1) = true := by simpa using hp.symm
      simp only [List.lookup, hbeq] at h
      have hv : v = p.2 := (Option.some.inj h).symm
      subst hv
      subst hp
      simp [setSock]
    · have hbeq : (k == p.1) = false := by
        simp only [beq_eq_false_iff_ne]; exact fun he => hp he.symm
      simp only [List.lookup, hbeq] at h
      simp [setSock, hp, ih h]

theorem mem_setSock_self {β : Type} (k : String) (v : β)
    (m : List (String × β)) : (k, v) ∈ setSock k v m := by
  induction m with
  | nil => simp [setSock]
  | cons p ps ih =>
    by_cases h : p.1 = k
    · simp [setSock, h]
    · simp [setSock, h, ih]

theorem mem_setSock_of_ne {β : Type} {p : String × β} {m : List (String × β)}
    (k : String) (v : β) (hp : p ∈ m) (hne : p.1 ≠ k) : p ∈ setSock k v m := by
  induction m with
  | nil => simp at hp
  | cons q qs ih =>
    rcases List.mem_cons.mp hp with he | hm
    · subst he
      simp [setSock, hne, if_neg]
    · by_cases hq : q.1 = k
      · simp [setSock, hq, List.mem_cons_of_mem _ hm]
      · simp only [setSock, if_neg hq]
        exact List.mem_cons_of_mem _ (ih hm)

theorem mem_setSock_elim {β : Type} {p : String × β} {k : String} {v : β}
    {m : List (String × β)} (hnd : (keysOf m).Nodup)
    (hp : p ∈ setSock k v m) : p = (k, v) ∨ (p ∈ m ∧ p.1 ≠ k) := by
  induction m with
  | nil =>
    simp only [setSock, List.mem_singleton] at hp
    exact Or.inl hp
  | cons q qs ih =>
    have hnd2 : (keysOf qs).Nodup := (List.nodup_cons.mp hnd).2
    have hq1 : q.1 ∉ keysOf qs := (List.nodup_cons.mp hnd).1
    by_cases hq : q.1 = k
    · simp only [setSock, if_pos hq] at hp
      rcases List.mem_cons.mp hp with he | hm
      · exact Or.inl he
      · right
        refine ⟨List.mem_cons_of_mem _ hm, ?_⟩
        intro hk
        apply hq1
        rw [hq, ← hk]
        exact List.mem_map_of_mem (fun r => r.1) hm
    · simp only [setSock, if_neg hq] at hp
      rcases List.mem_cons.mp hp with he | hm
      · subst he
        exact Or.inr ⟨List.mem_cons_self _ _, hq⟩
      · rcases ih hnd2 hm with h | ⟨h1, h2⟩
        · exact Or.inl h
        · exact Or.inr ⟨List.mem_cons_of_mem _ h1, h2⟩

theorem keysOf_setSock_nodup {β : Type} {k : String} {v : β}
    {m : List (String × β)} (hnd : (keysOf m).Nodup) :
    (keysOf (setSock k v m)).Nodup := by
  induction m with
  | nil => simp [setSock, keysOf]
  | cons q qs ih =>
    have hnd1 : q.1 ∉ keysOf qs ∧ (keysOf qs).Nodup := by
      simpa [keysOf, List.nodup_cons] using hnd
    by_cases hq : q.1 = k
    · have hkeys : keysOf (setSock k v (q :: qs)) = k :: keysOf qs := by
        simp [setSock, hq, keysOf]
      rw [hkeys]
      exact List.nodup_cons.mpr ⟨by rw [← hq]; exact hnd1.1, hnd1.2⟩
    · have hkeys : keysOf (setSock k v (q :: qs)) = q.1 :: keysOf (setSock k v qs) := by
        simp [setSock, hq, keysOf]
      rw [hkeys]
      refine List.nodup_cons.mpr ⟨?_, ih hnd1.2⟩
      intro hmem
      rcases List.mem_map.mp hmem with ⟨p, hp, hpe⟩
      rcases mem_setSock_elim hnd1.2 hp with he | ⟨h1, _⟩
      · exact hq (by rw [← hpe, he])
      · refine hnd1.1 ?_
        have hm2 : p.1 ∈ keysOf qs := by
          simp only [keysOf]
          exact List.mem_map_of_mem (fun r => r.1) h1
        rw [hpe] at hm2
        exact hm2

theorem lookup_none_keys {β : Type} {k : String} {m : List (String × β)}
    (h : m.lookup k = none) : ∀ p ∈ m, p.1 ≠ k := by
  induction m with
  | nil => intro p hp; simp at hp
  | cons q qs ih =>
    intro p hp
    rcases List.mem_cons.mp hp with he | hm
    · subst he
      intro hk
      have hbeq : (k == p.1) = true := by simpa using hk.symm
      simp [List.lookup, hbeq] at h
    · cases hq : (k == q.1) with
      | true => simp [List.lookup, hq] at h
      | false =>
        simp only [List.lookup, hq] at h
        exact ih h p hm

theorem lookup_of_mem_nodup {β : Type} {p : String × β} {m : List (String × β)}
    (hnd : (keysOf m).Nodup) (hp : p ∈ m) : m.lookup p.1 = some p.2 := by
  induction m with
  | nil => simp at hp
  | cons q qs ih =>
    have hcons := List.nodup_cons.mp hnd
    rcases List.mem_cons.mp hp with he | hm
    · subst he
      simp [List.lookup]
    · have hne : p.1 ≠ q.1 := by
        intro he
        refine hcons.1 ?_
        have hm2 : p.1 ∈ List.map (fun r : String × β => r.1) qs :=
          List.mem_map_of_mem (fun r => r.1) hm
        rw [he] at hm2
        exact hm2
      have hbeq : (p.1 == q.1) = false := by simpa using hne
      simp only [List.lookup, hbeq]
      exact ih hcons.2 hm

theorem used_setSock {sid x : String} {v : List String}
    {m : List (String × List String)} (hnd : (keysOf m).Nodup) :
    roomInUse (setSock sid v m) x = true ↔ (x ∈ v ∨ usedExcept m sid x) := by
  rw [roomInUse_iff]
  constructor
  · rintro ⟨p, hp, hx⟩
    rcases mem_setSock_elim hnd hp with he | ⟨h1, h2⟩
    · left; rw [he] at hx; exact hx
    · right; exact ⟨p, h1, h2, hx⟩
  · rintro (hx | ⟨p, hp, hne, hx⟩)
    · exact ⟨(sid, v), mem_setSock_self sid v m, hx⟩
    · exact ⟨p, mem_setSock_of_ne sid v hp hne, hx⟩

theorem used_split {sid x : String} {sr : List String}
    {m : List (String × List String)} (hnd : (keysOf m).Nodup)
    (hlk : m.lookup sid = some sr) :
    roomInUse m x = true ↔ (x ∈ sr ∨ usedExcept m sid x) := by
  rw [roomInUse_iff]
  constructor
  · rintro ⟨p, hp, hx⟩
    by_cases hps : p.1 = sid
    · left
      have hlp := lookup_of_mem_nodup hnd hp
      rw [hps, hlk] at hlp
      have hv : sr = p.2 := Option.some.inj hlp
      rw [hv]; exact hx
    · right; exact ⟨p, hp, hps, hx⟩
  · rintro (hx | ⟨p, hp, _, hx⟩)
    · exact ⟨(sid, sr), lookup_mem hlk, hx⟩
    · exact ⟨p, hp, hx⟩

theorem used_of_lookup_none {sid x : String} {m : List (String × List String)}
    (hlk : m.lookup sid = none) :
    roomInUse m x = true ↔ usedExcept m sid x := by
  rw [roomInUse_iff]
  constructor
  · rintro ⟨p, hp, hx⟩
    exact ⟨p, hp, lookup_none_keys hlk p hp, hx⟩
  · rintro ⟨p, hp, _, hx⟩
    exact ⟨p, hp, hx⟩

/-- Adapter invariant maintained by subscribe/unsubscribe: well-formed
maps plus the two claimed set equalities — a room is subscribed iff some
local socket set holds it, and the subscription cache coincides with
the subscribed set. -/
def AdInv (a : AdapterState) : Prop :=
  (keysOf a.socketRooms).Nodup ∧
  (∀ p ∈ a.socketRooms, p.2.Nodup) ∧
  a.subscribedRooms.Nodup ∧
  a.subCache.Nodup ∧
  (∀ r, r ∈ a.subscribedRooms ↔ roomInUse a.socketRooms r = true) ∧
  (∀ r, r ∈ a.subCache ↔ r ∈ a.subscribedRooms)

theorem mem_addRoom {room x : String} {sr : List String} :
    x ∈ addRoom room sr ↔ (x ∈ sr ∨ x = room) := by
  unfold addRoom
  by_cases hx : room ∈ sr
  · rw [if_pos hx]
    constructor
    · exact Or.inl
    · rintro (h | rfl)
      · exact h
      · exact hx
  · rw [if_neg hx]
    simp

theorem nodup_addRoom {room : String} {sr : List String} (h : sr.Nodup) :
    (addRoom room sr).Nodup := by
  unfold addRoom
  by_cases hx : room ∈ sr
  · rw [if_pos hx]; exact h
  · rw [if_neg hx]; simp [List.nodup_append, h, hx]

theorem socketRooms_subscribeToRoom (sid room : String) (a : AdapterState) :
    (subscribeToRoom sid room a).socketRooms = (subAdd sid room a).socketRooms := by
  unfold subscribeToRoom
  by_cases h1 : room ∈ a.subCache
  · rw [if_pos h1]
  · rw [if_neg h1]
    by_cases h2 : room ∈ a.subscribedRooms
    · rw [if_pos h2]
    · rw [if_neg h2]

theorem subAdd_used (sid room : String) (a : AdapterState)
    (hkeys : (keysOf a.socketRooms).Nodup) (x : String) :
    roomInUse (subAdd sid room a).socketRooms x = true ↔
      (roomInUse a.socketRooms x = true ∨ x = room) := by
  have h2 := @used_setSock sid x
    (addRoom room ((a.socketRooms.lookup sid).getD [])) a.socketRooms hkeys
  have hproj : (subAdd sid room a).socketRooms
      = setSock sid (addRoom room ((a.socketRooms.lookup sid).getD [])) a.socketRooms := rfl
  rw [hproj, h2, mem_addRoom]
  cases hl : a.socketRooms.lookup sid with
  | none =>
    rw [used_of_lookup_none hl]
    simp only [hl, Option.getD_none, List.not_mem_nil, false_or]
    tauto
  | some s =>
    rw [used_split hkeys hl]
    simp only [hl, Option.getD_some]
    tauto

theorem adInv_sub (a : AdapterState) (h : AdInv a) (sid room : String) :
    AdInv (subscribeToRoom sid room a) := by
  obtain ⟨hkeys, hsets, hsub, hcache, hiff, hcs⟩ := h
  have hsrN : ((a.socketRooms.lookup sid).getD []).Nodup := by
    cases hl : a.socketRooms.lookup sid with
    | none => simp
    | some s => simpa using hsets (sid, s) (lookup_mem hl)
  have hSAkeys : (keysOf (subAdd sid room a).socketRooms).Nodup :=
    keysOf_setSock_nodup hkeys
  have hSAsets : ∀ p ∈ (subAdd sid room a).socketRooms, p.2.Nodup := by
    intro p hp
    rcases mem_setSock_elim hkeys hp with he | ⟨h1, _⟩
    · rw [he]; exact nodup_addRoom hsrN
    · exact hsets p h1
  have hSAused := subAdd_used sid room a hkeys
  unfold subscribeToRoom
  by_cases hc : room ∈ a.subCache
  · rw [if_pos hc]
    have hrsub : room ∈ a.subscribedRooms := (hcs room).mp hc
    refine ⟨hSAkeys, hSAsets, hsub, hcache, ?_, hcs⟩
    intro x
    constructor
    · intro hx; exact (hSAused x).mpr (Or.inl ((hiff x).mp hx))
    · intro hx
      rcases (hSAused x).mp hx with h1 | h1
      · exact (hiff x).mpr h1
      · rw [h1]; exact hrsub
  · rw [if_neg hc]
    by_cases hs : room ∈ a.subscribedRooms
    · rw [if_pos hs]
      refine ⟨hSAkeys, hSAsets, hsub, hcache, ?_, hcs⟩
      intro x
      constructor
      · intro hx; exact (hSAused x).mpr (Or.inl ((hiff x).mp hx))
      · intro hx
        rcases (hSAused x).mp hx with h1 | h1
        · exact (hiff x).mpr h1
        · rw [h1]; exact hs
    · rw [if_neg hs]
      refine ⟨hSAkeys, hSAsets, ?_, ?_, ?_, ?_⟩
      · simp [List.nodup_append, hsub, hs]
      · simp [List.nodup_append, hcache, hc]
      · intro x
        rw [List.mem_append, List.mem_singleton, hSAused x, hiff x]
      · intro x
        simp only [List.mem_append, List.mem_singleton]
        rw [hcs x]

theorem adInv_unsub (a : AdapterState) (h : AdInv a) (sid room : String) :
    AdInv (unsubscribeFromRoom sid room a) := by
  obtain ⟨hkeys, hsets, hsub, hcache, hiff, hcs⟩ := h
  unfold unsubscribeFromRoom
  cases hl : a.socketRooms.lookup sid with
  | none => exact ⟨hkeys, hsets, hsub, hcache, hiff, hcs⟩
  | some sr =>
    show AdInv (if roomInUse (unsubRemove sid room sr a).socketRooms room = false
        ∧ room ∈ a.subscribedRooms then
      { unsubRemove sid room sr a with
          subscribedRooms := a.subscribedRooms.erase room,
          subCache := a.subCache.erase room }
      else unsubRemove sid room sr a)
    have hsrN : sr.Nodup := by simpa using hsets (sid, sr) (lookup_mem hl)
    have hURkeys : (keysOf (unsubRemove sid room sr a).socketRooms).Nodup :=
      keysOf_setSock_nodup hkeys
    have hURsets : ∀ p ∈ (unsubRemove sid room sr a).socketRooms, p.2.Nodup := by
      intro p hp
      rcases mem_setSock_elim hkeys hp with he | ⟨h1, _⟩
      · rw [he]; exact hsrN.erase room
      · exact hsets p h1
    have hURused : ∀ x, roomInUse (unsubRemove sid room sr a).socketRooms x = true ↔
        (x ∈ sr.erase room ∨ usedExcept a.socketRooms sid x) := by
      intro x
      have hproj : (unsubRemove sid room sr a).socketRooms
          = setSock sid (sr.erase room) a.socketRooms := rfl
      rw [hproj]
      exact used_setSock hkeys
    have hused : ∀ x, roomInUse a.socketRooms x = true ↔
        (x ∈ sr ∨ usedExcept a.socketRooms sid x) :=
      fun x => used_split hkeys hl
    have hUR_ne : ∀ x, x ≠ room →
        (roomInUse (unsubRemove sid room sr a).socketRooms x = true ↔
         roomInUse a.socketRooms x = true) := by
      intro x hx
      rw [hURused, hused, List.mem_erase_of_ne hx]
    have hUR_imp : ∀ x, roomInUse (unsubRemove sid room sr a).socketRooms x = true →
        roomInUse a.socketRooms x = true := by
      intro x hx
      rcases (hURused x).mp hx with h1 | h2
      · exact (hused x).mpr (Or.inl (List.mem_of_mem_erase h1))
      · exact (hused x).mpr (Or.inr h2)
    by_cases hcond : roomInUse (unsubRemove sid room sr a).socketRooms room = false
        ∧ room ∈ a.subscribedRooms
    · rw [if_pos hcond]
      refine ⟨hURkeys, hURsets, hsub.erase room, hcache.erase room, ?_, ?_⟩
      · intro x
        by_cases hx : x = room
        · subst hx
          constructor
          · intro hmem; exact absurd hmem (hsub.not_mem_erase)
          · intro hu; rw [hcond.1] at hu; exact absurd hu (by simp)
        · rw [List.mem_erase_of_ne hx, hUR_ne x hx]
          exact hiff x
      · intro x
        by_cases hx : x = room
        · subst hx
          constructor
          · intro hmem; exact absurd hmem (hcache.not_mem_erase)
          · intro hmem; exact absurd hmem (hsub.not_mem_erase)
        · rw [List.mem_erase_of_ne hx, List.mem_erase_of_ne hx]
          exact hcs x
    · rw [if_neg hcond]
      refine ⟨hURkeys, hURsets, hsub, hcache, ?_, hcs⟩
      intro x
      by_cases hx : x = room
      · subst hx
        constructor
        · intro hmem
          cases hu : roomInUse (unsubRemove sid x sr a).socketRooms x with
          | false => exact absurd ⟨hu, hmem⟩ hcond
          | true => rfl
        · intro hu
          exact (hiff x).mpr (hUR_imp x hu)
      · rw [hUR_ne x hx]
        exact hiff x

theorem adInv_init : AdInv adapterInit := by
  refine ⟨by simp [keysOf, adapterInit], by simp [adapterInit], by simp [adapterInit],
    by simp [adapterInit], ?_, by simp [adapterInit]⟩
  intro r
  simp [adapterInit, roomInUse]

theorem adInv_step {a b : AdapterState} (h : AdInv a) (hs : SubUnsubStep a b) : AdInv b := by
  cases hs with
  | sub sid room a => exact adInv_sub a h sid room
  | unsub sid room a => exact adInv_unsub a h sid room

theorem adInv_reach {a : AdapterState} (h : SubUnsubReach a) : AdInv a := by
  induction h with
  | init => exact adInv_init
  | step hr hs ih => exact adInv_step ih hs

/-- C5, counterexample. The claim asserts that in every reachable state
the process is bus-subscribed to a room iff at least one local socket
is in it. Two steps refute it: socket `A` subscribes to room `R`, then
`A` disconnects. `handleDisconnect` runs `checkRoomUnsubscription`
BEFORE deleting the socket's own `socketRooms` entry, so the scan still
sees `A` itself holding `R` and never unsubscribes; after the entry is
deleted, the process is still subscribed to `R` although no local
socket is in it (the subscription cache also still holds `R`). -/
theorem adapter_refcount_cex :
    AdapterReach (handleDisconnect "A" (subscribeToRoom "A" "R" adapterInit)) ∧
    "R" ∈ (handleDisconnect "A" (subscribeToRoom "A" "R" adapterInit)).subscribedRooms ∧
    roomInUse (handleDisconnect "A" (subscribeToRoom "A" "R" adapterInit)).socketRooms "R"
      = false :=
  ⟨AdapterReach.step
      (AdapterReach.step AdapterReach.init (AdapterStep.sub "A" "R" adapterInit))
      (AdapterStep.disc "A" _),
    by decide, by decide⟩

/-- C5, amended. Restricted to subscribe/unsubscribe steps (no
disconnects), the subscription bookkeeping behaves as the idempotent
reference count of the claim: in every reachable state the process is
bus-subscribed to a room iff at least one local socket set holds it;
calling unsubscribe for a room no local socket is in is a no-op; and
after two different sockets subscribe to the same room, one socket's
unsubscribe leaves the process still bus-subscribed. A socket
disconnect, however, can break the invariant (the last socket's
disconnect leaves the room subscribed — see the counterexample). -/
theorem adapter_refcount_amended (a : AdapterState) (hrch : SubUnsubReach a) :
    (∀ r, r ∈ a.subscribedRooms ↔ roomInUse a.socketRooms r = true) ∧
    (∀ sid r, roomInUse a.socketRooms r = false → unsubscribeFromRoom sid r a = a) ∧
    (∀ sidA sidB r, sidA ≠ sidB →
      r ∈ (unsubscribeFromRoom sidA r
            (subscribeToRoom sidB r (subscribeToRoom sidA r a))).subscribedRooms) := by
  have hinv := adInv_reach hrch
  obtain ⟨hkeys, hsets, hsub, hcache, hiff, hcs⟩ := hinv
  refine ⟨hiff, ?_, ?_⟩
  · intro sid r hru
    unfold unsubscribeFromRoom
    cases hl : a.socketRooms.lookup sid with
    | none => rfl
    | some sr =>
      show (if roomInUse (unsubRemove sid r sr a).socketRooms r = false
          ∧ r ∈ a.subscribedRooms then
        { unsubRemove sid r sr a with
            subscribedRooms := a.subscribedRooms.erase r,
            subCache := a.subCache.erase r }
        else unsubRemove sid r sr a) = a
      have hrnot : r ∉ sr := by
        intro hmem
        have hu : roomInUse a.socketRooms r = true :=
          roomInUse_iff.mpr ⟨(sid, sr), lookup_mem hl, hmem⟩
        rw [hru] at hu
        exact absurd hu (by simp)
      have her : sr.erase r = sr := List.erase_of_not_mem hrnot
      have hm : setSock sid (sr.erase r) a.socketRooms = a.socketRooms := by
        rw [her]; exact setSock_eq_of_lookup hl
      have hUReq : unsubRemove sid r sr a = a := by
        unfold unsubRemove
        rw [hm]
      have hnotsub : r ∉ a.subscribedRooms := by
        intro hmem
        have hu := (hiff r).mp hmem
        rw [hru] at hu
        exact absurd hu (by simp)
      rw [hUReq, if_neg (fun hcnd => hnotsub hcnd.2)]
  · intro sidA sidB r hne
    have hInv1 : AdInv (subscribeToRoom sidA r a) :=
      adInv_sub a ⟨hkeys, hsets, hsub, hcache, hiff, hcs⟩ sidA r
    have hInv2 : AdInv (subscribeToRoom sidB r (subscribeToRoom sidA r a)) :=
      adInv_sub _ hInv1 sidB r
    have hBlookup : (subscribeToRoom sidB r (subscribeToRoom sidA r a)).socketRooms.lookup
        sidB = some (addRoom r
          (((subscribeToRoom sidA r a).socketRooms.lookup sidB).getD [])) := by
      rw [socketRooms_subscribeToRoom]
      exact lookup_setSock_self _ _ _
    have hrB : r ∈ addRoom r (((subscribeToRoom sidA r a).socketRooms.lookup sidB).getD []) :=
      mem_addRoom.mpr (Or.inr rfl)
    have hsubB2 : r ∈ (subscribeToRoom sidB r (subscribeToRoom sidA r a)).subscribedRooms := by
      refine (hInv2.2.2.2.2.1 r).mpr ?_
      exact roomInUse_iff.mpr ⟨_, lookup_mem hBlookup, hrB⟩
    unfold unsubscribeFromRoom
    cases hl : (subscribeToRoom sidB r (subscribeToRoom sidA r a)).socketRooms.lookup sidA with
    | none => exact hsubB2
    | some srA =>
      show r ∈ (if roomInUse (unsubRemove sidA r srA
            (subscribeToRoom sidB r (subscribeToRoom sidA r a))).socketRooms r = false
          ∧ r ∈ (subscribeToRoom sidB r (subscribeToRoom sidA r a)).subscribedRooms then
        { unsubRemove sidA r srA (subscribeToRoom sidB r (subscribeToRoom sidA r a)) with
            subscribedRooms :=
              (subscribeToRoom sidB r (subscribeToRoom sidA r a)).subscribedRooms.erase r,
            subCache :=
              (subscribeToRoom sidB r (subscribeToRoom sidA r a)).subCache.erase r }
        else unsubRemove sidA r srA
          (subscribeToRoom sidB r (subscribeToRoom sidA r a))).subscribedRooms
      have hbused : roomInUse (unsubRemove sidA r srA
          (subscribeToRoom sidB r (subscribeToRoom sidA r a))).socketRooms r = true := by
        rw [roomInUse_iff]
        refine ⟨(sidB, addRoom r
          (((subscribeToRoom sidA r a).socketRooms.lookup sidB).getD [])), ?_, hrB⟩
        exact mem_setSock_of_ne sidA (srA.erase r) (lookup_mem hBlookup) hne.symm
      rw [if_neg (fun hcnd => by rw [hbused] at hcnd; exact absurd hcnd.1 (by simp))]
      exact hsubB2

/-- C5 witness: the amended properties instantiated at the initial
state: the iff holds for room `R`, and after sockets `A` and `B` both
subscribe to `R`, socket `A`'s unsubscribe leaves `R` subscribed. -/
theorem adapter_refcount_amended_witness :
    ("R" ∈ adapterInit.subscribedRooms ↔ roomInUse adapterInit.socketRooms "R" = true) ∧
    "R" ∈ (unsubscribeFromRoom "A" "R"
            (subscribeToRoom "B" "R" (subscribeToRoom "A" "R" adapterInit))).subscribedRooms := by
  have h := adapter_refcount_amended adapterInit SubUnsubReach.init
  exact ⟨h.1 "R", h.2.2 "A" "B" "R" (by decide)⟩

/-- The disconnect handler's distinction of `chat.js`: a reason counts
as network loss (and triggers the "user disconnected" system message
plus the participant removal) only when it is neither the client's own
namespace disconnect nor the duplicate-login takeover. -/
def isNetworkLoss (reason : String) : Bool :=
  reason != "client namespace disconnect" && reason != "duplicate_login"

/-- Per-process room-membership state of the `chat.js` handlers: the
`userRooms` map (user id to current room) and the durable `Room`
participant sets (room id to participant user ids). -/
structure RoomState where
  userRooms : List (String × String)
  rooms : List (String × List String)
deriving DecidableEq, Repr

/-- The `joinRoom` handler: when the user is already in a DIFFERENT
room, the socket leaves that room's channel and the `userRooms` entry
is deleted — but the old room's participant set is NOT updated; then
`findByIdAndUpdate` with `$addToSet` inserts the user into the new
room's participants (a missing room aborts with an error, after the
implicit leave already ran), the socket joins the channel, and
`userRooms` is pointed at the new room. -/
def joinRoom (uid roomId : String) (s : RoomState) : RoomState :=
  let s1 := match s.userRooms.lookup uid with
    | some cur =>
        if cur ≠ roomId then { s with userRooms := delSock uid s.userRooms } else s
    | none => s
  match s1.rooms.lookup roomId with
  | none => s1
  | some parts =>
      { s1 with rooms := setSock roomId (addRoom uid parts) s1.rooms,
                userRooms := setSock uid roomId s1.userRooms }

/-- The `leaveRoom` handler: a no-op unless the user's current room is
exactly the room being left and the user is a participant; then the
`userRooms` entry is deleted and `$pull` removes the user from the
participant set. -/
def leaveRoom (uid roomId : String) (s : RoomState) : RoomState :=
  match s.userRooms.lookup uid with
  | none => s
  | some cur =>
      if cur ≠ roomId then s
      else match s.rooms.lookup roomId with
        | none => s
        | some parts =>
            if uid ∈ parts then
              { s with userRooms := delSock uid s.userRooms,
                       rooms := setSock roomId (parts.erase uid) s.rooms }
            else s

/-- The `disconnect` handler's membership part: the `userRooms` entry is
always deleted; the participant set is `$pull`-ed only for network-loss
reasons (not on a deliberate client disconnect or a duplicate-login
takeover). -/
def discRoom (uid reason : String) (s : RoomState) : RoomState :=
  match s.userRooms.lookup uid with
  | none => s
  | some roomId =>
      let s1 : RoomState := { s with userRooms := delSock uid s.userRooms }
      if isNetworkLoss reason then
        match s1.rooms.lookup roomId with
        | none => s1
        | some parts => { s1 with rooms := setSock roomId (parts.erase uid) s1.rooms }
      else s1

/-- Fixture: two empty rooms and no user-room associations. -/
def rsInit : RoomState := ⟨[], [("R1", []), ("R2", [])]⟩

/-- C8, counterexample. User `u` joins `R1`, then joins `R2`. The claim
says the user is then no longer a member of `R1`'s participant set; in
the code the implicit leave only does `socket.leave` and
`userRooms.delete` — no `$pull` on the old room — so `u` is still in
`R1.participants` while `userRooms` maps `u` to `R2` and `u` is also in
`R2.participants`. -/
theorem joinRoom_keeps_old_participants_cex :
    (joinRoom "u" "R2" (joinRoom "u" "R1" rsInit)).userRooms.lookup "u" = some "R2" ∧
    "u" ∈ (((joinRoom "u" "R2" (joinRoom "u" "R1" rsInit)).rooms.lookup "R2").getD []) ∧
    "u" ∈ (((joinRoom "u" "R2" (joinRoom "u" "R1" rsInit)).rooms.lookup "R1").getD []) := by
  refine ⟨by decide, by decide, by decide⟩

/-- C8, amended. After `joinRoom(newRoom)` by a user currently in
`oldRoom` (distinct from `newRoom`, `newRoom` existing): the user is a
participant of `newRoom` and the per-process user-to-room map sends the
user exactly to `newRoom` — but the old room's participant set is left
completely unchanged (the user stays in it until an explicit
`leaveRoom` or a network-loss disconnect). -/
theorem joinRoom_switches_room (s : RoomState) (uid oldR newR : String) (parts : List String)
    (hcur : s.userRooms.lookup uid = some oldR) (hne : oldR ≠ newR)
    (hroom : s.rooms.lookup newR = some parts) :
    ((joinRoom uid newR s).userRooms.lookup uid = some newR) ∧
    (uid ∈ (((joinRoom uid newR s).rooms.lookup newR).getD [])) ∧
    ((joinRoom uid newR s).rooms.lookup oldR = s.rooms.lookup oldR) := by
  have hs1 : joinRoom uid newR s
      = { rooms := setSock newR (addRoom uid parts) s.rooms,
          userRooms := setSock uid newR (delSock uid s.userRooms) } := by
    unfold joinRoom
    rw [hcur]
    simp only [if_pos hne]
    rw [show ({ s with userRooms := delSock uid s.userRooms } : RoomState).rooms
        = s.rooms from rfl, hroom]
  rw [hs1]
  refine ⟨lookup_setSock_self uid newR _, ?_, ?_⟩
  · show uid ∈ ((setSock newR (addRoom uid parts) s.rooms).lookup newR).getD []
    rw [lookup_setSock_self newR (addRoom uid parts) s.rooms]
    exact mem_addRoom.mpr (Or.inr rfl)
  · show (setSock newR (addRoom uid parts) s.rooms).lookup oldR = s.rooms.lookup oldR
    exact lookup_setSock_ne (addRoom uid parts) s.rooms hne

/-- C8 witness: the amended statement instantiated on the concrete
two-room fixture after `u` joined `R1`. -/
theorem joinRoom_switches_room_witness :
    ((joinRoom "u" "R2" (joinRoom "u" "R1" rsInit)).userRooms.lookup "u" = some "R2") ∧
    ((joinRoom "u" "R2" (joinRoom "u" "R1" rsInit)).rooms.lookup "R1"
      = (joinRoom "u" "R1" rsInit).rooms.lookup "R1") := by
  have h := joinRoom_switches_room (joinRoom "u" "R1" rsInit) "u" "R1" "R2" []
    (by decide) (by decide) (by decide)
  exact ⟨h.1, h.2.2⟩

/-- The `\w` test underlying the regex word boundary (ASCII word
characters). -/
def isWordChar (c : Char) : Bool :=
  (('a' ≤ c) && (c ≤ 'z')) || (('A' ≤ c) && (c ≤ 'Z')) || (('0' ≤ c) && (c ≤ '9')) || c = '_'

/-- The `\b` after a mention: end of input or a non-word character. -/
def boundaryOk : List Char → Bool
  | [] => true
  | c :: _ => !(isWordChar c)

/-- Literal prefix test on character lists (first argument is the
pattern). -/
def leadsWith : List Char → List Char → Bool
  | [], _ => true
  | _ :: _, [] => false
  | a :: as, b :: bs => a = b && leadsWith as bs

/-- The `aiTypes` array of `extractAIMentions`. -/
def aiTypes : List String := ["wayneAI", "consultingAI"]

/-- One pass of the global regex `@(wayneAI|consultingAI)\b` over the
content, with the matched names collected into a javascript Set
(`addRoom` is add-if-absent in first-occurrence order): at each
position the two alternatives are tried, each followed by a word
boundary; on a match the scan continues after the matched text,
otherwise at the next character. The structural fuel equals the number
of characters and is sufficient because every step consumes at least
one character. -/
def scanGo : Nat → List Char → List String → List String
  | _, [], acc => acc
  | 0, _ :: _, acc => acc
  | fuel + 1, c :: rest, acc =>
      if leadsWith ("@wayneAI".toList) (c :: rest) && boundaryOk ((c :: rest).drop 8) then
        scanGo fuel ((c :: rest).drop 8) (addRoom "wayneAI" acc)
      else if leadsWith ("@consultingAI".toList) (c :: rest)
          && boundaryOk ((c :: rest).drop 13) then
        scanGo fuel ((c :: rest).drop 13) (addRoom "consultingAI" acc)
      else scanGo fuel rest acc

/-- `extractAIMentions` of `chat.js`: falsy content (null, undefined,
the empty string) yields no mentions; otherwise the regex scan collects
each supported AI name at most once. -/
def extractAIMentions : Option String → List String
  | none => []
  | some s => if s = "" then [] else scanGo s.toList.length s.toList []

/-- Some position of the content matches `@(wayneAI|consultingAI)\b`. -/
def hasMention : List Char → Bool
  | [] => false
  | c :: rest =>
      (leadsWith ("@wayneAI".toList) (c :: rest) && boundaryOk ((c :: rest).drop 8)) ||
      (leadsWith ("@consultingAI".toList) (c :: rest) && boundaryOk ((c :: rest).drop 13)) ||
      hasMention rest

theorem scanGo_sound : ∀ (fuel : Nat) (l : List Char) (acc : List String),
    acc.Nodup → (∀ a ∈ acc, a ∈ aiTypes) →
    (scanGo fuel l acc).Nodup ∧ ∀ a ∈ scanGo fuel l acc, a ∈ aiTypes := by
  intro fuel
  induction fuel with
  | zero =>
    intro l acc h1 h2
    cases l with
    | nil => exact ⟨h1, h2⟩
    | cons c rest => exact ⟨h1, h2⟩
  | succ f ih =>
    intro l acc h1 h2
    cases l with
    | nil => exact ⟨h1, h2⟩
    | cons c rest =>
      simp only [scanGo]
      have haddW : ∀ a ∈ addRoom "wayneAI" acc, a ∈ aiTypes := by
        intro a ha
        rcases mem_addRoom.mp ha with h | h
        · exact h2 a h
        · rw [h]; simp [aiTypes]
      have haddC : ∀ a ∈ addRoom "consultingAI" acc, a ∈ aiTypes := by
        intro a ha
        rcases mem_addRoom.mp ha with h | h
        · exact h2 a h
        · rw [h]; simp [aiTypes]
      split
      · exact ih _ _ (nodup_addRoom h1) haddW
      · split
        · exact ih _ _ (nodup_addRoom h1) haddC
        · exact ih _ _ h1 h2

theorem scanGo_no_mention : ∀ (fuel : Nat) (l : List Char) (acc : List String),
    hasMention l = false → scanGo fuel l acc = acc := by
  intro fuel
  induction fuel with
  | zero =>
    intro l acc h
    cases l with
    | nil => rfl
    | cons c rest => rfl
  | succ f ih =>
    intro l acc h
    cases l with
    | nil => rfl
    | cons c rest =>
      simp only [hasMention, Bool.or_eq_false_iff] at h
      have h1 : (leadsWith ("@wayneAI".toList) (c :: rest)
          && boundaryOk ((c :: rest).drop 8)) = false := h.1.1
      have h2 : (leadsWith ("@consultingAI".toList) (c :: rest)
          && boundaryOk ((c :: rest).drop 13)) = false := h.1.2
      simp only [scanGo]
      rw [if_neg (by rw [h1]; exact Bool.false_ne_true),
        if_neg (by rw [h2]; exact Bool.false_ne_true)]
      exact ih rest acc h.2

/-- C10. `extractAIMentions` returns a duplicate-free sublist of the
supported AI names — so each of `wayneAI` and `consultingAI` appears at
most once however often it is mentioned, and the `chatMessage` handler,
which starts one streaming session per returned element, starts at most
one session per AI type per message; falsy content (null or empty)
yields the empty list; and content in which no position matches
`@(wayneAI|consultingAI)\b` yields the empty list. -/
theorem extractAIMentions_spec (c : Option String) :
    (extractAIMentions c).Nodup ∧
    (∀ a ∈ extractAIMentions c, a ∈ aiTypes) ∧
    (∀ a : String, (extractAIMentions c).count a ≤ 1) ∧
    extractAIMentions none = [] ∧
    extractAIMentions (some "") = [] ∧
    (∀ s : String, hasMention s.toList = false → extractAIMentions (some s) = []) := by
  have hbase : (extractAIMentions c).Nodup ∧ ∀ a ∈ extractAIMentions c, a ∈ aiTypes := by
    cases c with
    | none => simp [extractAIMentions]
    | some s =>
      by_cases hs : s = ""
      · simp [extractAIMentions, hs]
      · have := scanGo_sound s.toList.length s.toList [] (by simp) (by simp)
        simpa [extractAIMentions, hs] using this
  refine ⟨hbase.1, hbase.2, ?_, rfl, rfl, ?_⟩
  · exact fun a => List.nodup_iff_count_le_one.mp hbase.1 a
  · intro s hsm
    show (if s = "" then [] else scanGo s.toList.length s.toList []) = []
    by_cases hs : s = ""
    · rw [if_pos hs]
    · rw [if_neg hs]
      exact scanGo_no_mention s.toList.length s.toList [] hsm

/-- C10 witness: sample evaluations obtained through the theorem — a
message mentioning `wayneAI` three times (once without the word
boundary) yields it exactly once, and a mention-free message yields the
empty list. -/
theorem extractAIMentions_spec_witness :
    (extractAIMentions (some "hey @wayneAI and @wayneAIx plus @wayneAI")).count "wayneAI" ≤ 1 ∧
    extractAIMentions (some "no robots in this message") = [] ∧
    extractAIMentions (some "hey @wayneAI and @wayneAIx plus @wayneAI") = ["wayneAI"] := by
  refine ⟨(extractAIMentions_spec (some "hey @wayneAI and @wayneAIx plus @wayneAI")).2.2.1
    "wayneAI", ?_, by decide⟩
  exact (extractAIMentions_spec (some "no robots in this message")).2.2.2.2.2
    "no robots in this message" (by decide)

/-- Ephemeral streaming-session record held in `streamingSessions`. -/
structure AISession where
  room : String
  aiType : String
  content : String
  messageId : String
  timestamp : Nat
deriving DecidableEq, Repr

/-- Events broadcast to the room by `handleAIResponse`. -/
inductive AIEvent where
  | start (messageId aiType : String) (timestamp : Nat)
  | chunk (messageId currentChunk fullContent : String)
  | complete (messageId content aiType : String)
  | error (messageId errMsg aiType : String)
deriving DecidableEq, Repr

/-- State carried through one `handleAIResponse` run: the
`streamingSessions` map, the events broadcast so far, and the chat
service state written through `handleBulkMessages`. -/
structure AIState where
  sessions : List (String × AISession)
  events : List AIEvent
  chat : SState
deriving DecidableEq, Repr

/-- Session allocation and `aiMessageStart` broadcast at the head of
`handleAIResponse`. -/
def aiStart (room aiName msgId : String) (t : Nat) (st : AIState) : AIState :=
  { st with
      sessions := setSock msgId ⟨room, aiName, "", msgId, t⟩ st.sessions,
      events := st.events ++ [AIEvent.start msgId aiName t] }

/-- The `onChunk` callback: the chunk is appended to the accumulated
content, the session (when still present) is updated, and an
`aiMessageChunk` event carrying the accumulated content is broadcast. -/
def aiChunk (msgId : String) (acc c : String) (st : AIState) : AIState :=
  { st with
      sessions := st.sessions.map
        (fun p => if p.1 = msgId then (p.1, { p.2 with content := acc ++ c }) else p),
      events := st.events ++ [AIEvent.chunk msgId c (acc ++ c)] }

/-- The sequence of `onChunk` callbacks over a chunk list, threading
the accumulated content. -/
def aiChunks (msgId : String) : String → List String → AIState → AIState
  | _, [], st => st
  | acc, c :: cs, st => aiChunks msgId (acc ++ c) cs (aiChunk msgId acc c st)

/-- The `onComplete` callback: the session entry is removed, the final
message (type `ai`, with the callback's content) is submitted through
the batch writer via `handleBulkMessages`, and `aiMessageComplete`
carrying that content is broadcast. -/
def aiComplete (msgId room aiName finalContent : String) (t : Nat) (st : AIState) : AIState :=
  let aiMsg : Msg := { room := room, mtype := "ai", content := finalContent,
                       sender := none, aiType := some aiName, timestamp := t }
  { st with
      sessions := st.sessions.filter (fun p => p.1 != msgId),
      chat := handleBulkMessages [aiMsg] st.chat,
      events := st.events ++ [AIEvent.complete msgId finalContent aiName] }

/-- The `onError` callback: the session entry is removed and an
`aiMessageError` is broadcast; nothing is submitted to the batch
writer. -/
def aiError (msgId aiName errMsg : String) (st : AIState) : AIState :=
  { st with
      sessions := st.sessions.filter (fun p => p.1 != msgId),
      events := st.events ++ [AIEvent.error msgId errMsg aiName] }

/-- Modelled from the spec: `aiService.generateResponse` is not among
the repository sources (only its call site in `handleAIResponse` is);
per the spec the completion callback receives the full accumulated
content, the concatenation of all emitted chunks. -/
def specFinalContent (chunks : List String) : String := String.join chunks

/-- The message that `onComplete` submits. -/
def aiFinalMsg (room aiName finalContent : String) (t : Nat) : Msg :=
  { room := room, mtype := "ai", content := finalContent,
    sender := none, aiType := some aiName, timestamp := t }

/-- One successful `handleAIResponse` run: start, every chunk callback,
then the completion callback with the spec-modelled final content. -/
def handleAIResponse (room aiName msgId : String) (chunks : List String)
    (t tEnd : Nat) (st : AIState) : AIState :=
  aiComplete msgId room aiName (specFinalContent chunks) tEnd
    (aiChunks msgId "" chunks (aiStart room aiName msgId t st))

/-- One `handleAIResponse` run that ends in the `onError` callback
after the given chunks. -/
def handleAIResponseError (room aiName msgId errMsg : String) (chunks : List String)
    (t : Nat) (st : AIState) : AIState :=
  aiError msgId aiName errMsg (aiChunks msgId "" chunks (aiStart room aiName msgId t st))

theorem aiChunks_chat (msgId : String) :
    ∀ (cs : List String) (acc : String) (st : AIState),
      (aiChunks msgId acc cs st).chat = st.chat := by
  intro cs
  induction cs with
  | nil => intro acc st; rfl
  | cons c cs ih => intro acc st; rw [aiChunks, ih]; rfl

theorem lookup_filter_self_none {β : Type} (k : String) (l : List (String × β)) :
    (l.filter (fun p => p.1 != k)).lookup k = none := by
  induction l with
  | nil => rfl
  | cons p ps ih =>
    by_cases h : p.1 = k
    · have hc : (p.1 != k) = false := by simp [h]
      simp only [List.filter, hc]
      exact ih
    · have hc : (p.1 != k) = true := by simp [h]
      have hbeq : (k == p.1) = false := by
        simp only [beq_eq_false_iff_ne]
        exact fun he => h he.symm
      simp only [List.filter, hc, List.lookup, hbeq]
      exact ih

theorem loadMessages_after_flush_single (m : Msg) (hdel : m.isDeleted = false) :
    (loadMessages (flushCommit [m] (flushBegin (handleBulkMessages [m] chatInit)))
      m.room none 30).messages = [m] := by
  have hst : flushCommit [m] (flushBegin (handleBulkMessages [m] chatInit))
      = ⟨[m], [(m.room, m.timestamp)], [((m.room, m.timestamp), m)], [], []⟩ := by
    simp [flushCommit, flushBegin, handleBulkMessages, chatInit, cacheOne, zaddIdx, setPay]
  rw [hst]
  simp [loadMessages, loadMessagesFromRedis, zrevrangebyscore, roomScores, jsCursor,
    sortDesc, insertDesc, getPay, List.lookup, findRoomMessages, matchesRoomQuery,
    sortMsgsDesc, insertMsgDesc, pageOf, hdel]

/-- Fixture state for the AI run: no sessions, no events, empty chat
service state. -/
def aiInit : AIState := ⟨[], [], chatInit⟩

/-- C7, counterexample. Running the session with exactly the claim's
chunks `"Hel"`, `"lo "`, `" world"`: the completion event carries their
concatenation `"Hello  world"` (two spaces) — not `"Hello world"` as
the claim's example states — and a `loadMessages` immediately after the
completion returns no messages at all, because the final message is
only in the batch writer's buffer until the next flush. -/
theorem ai_complete_content_cex :
    AIEvent.complete "id1" "Hello  world" "wayneAI"
        ∈ (handleAIResponse "R1" "wayneAI" "id1" ["Hel", "lo ", " world"] 1 2 aiInit).events ∧
    AIEvent.complete "id1" "Hello world" "wayneAI"
        ∉ (handleAIResponse "R1" "wayneAI" "id1" ["Hel", "lo ", " world"] 1 2 aiInit).events ∧
    (loadMessages
        (handleAIResponse "R1" "wayneAI" "id1" ["Hel", "lo ", " world"] 1 2 aiInit).chat
        "R1" none 30).messages = [] := by
  refine ⟨by decide, by decide, by decide⟩

/-- C7, amended. For a session run from a fresh chat service state:
the completion broadcast carries exactly the concatenation of all
emitted chunks (for `"Hel"`, `"lo "`, `" world"` that is
`"Hello  world"`, with two spaces); the session entry is removed; the
final message is submitted through the batch writer, and once the next
flush commits, `loadMessages` on the room returns exactly that message,
with that content and type `ai`; a session that reaches the error
callback broadcasts an error event, removes the session entry, and
leaves the chat service state untouched — no partial content is ever
submitted or persisted. -/
theorem handleAIResponse_spec (room aiName msgId errMsg : String) (chunks : List String)
    (t tEnd : Nat) (st0 : AIState) (hch : st0.chat = chatInit) :
    ((handleAIResponse room aiName msgId chunks t tEnd st0).events.getLast?
        = some (AIEvent.complete msgId (specFinalContent chunks) aiName)) ∧
    ((handleAIResponse room aiName msgId chunks t tEnd st0).sessions.lookup msgId = none) ∧
    ((handleAIResponse room aiName msgId chunks t tEnd st0).chat.buffer
        = [aiFinalMsg room aiName (specFinalContent chunks) tEnd]) ∧
    ((loadMessages
        (flushCommit (handleAIResponse room aiName msgId chunks t tEnd st0).chat.buffer
          (flushBegin (handleAIResponse room aiName msgId chunks t tEnd st0).chat))
        room none 30).messages
      = [aiFinalMsg room aiName (specFinalContent chunks) tEnd]) ∧
    ((handleAIResponseError room aiName msgId errMsg chunks t st0).events.getLast?
        = some (AIEvent.error msgId errMsg aiName)) ∧
    ((handleAIResponseError room aiName msgId errMsg chunks t st0).sessions.lookup msgId
        = none) ∧
    ((handleAIResponseError room aiName msgId errMsg chunks t st0).chat = st0.chat) := by
  have hchatC : (handleAIResponse room aiName msgId chunks t tEnd st0).chat
      = handleBulkMessages [aiFinalMsg room aiName (specFinalContent chunks) tEnd] chatInit := by
    show (aiComplete msgId room aiName (specFinalContent chunks) tEnd
        (aiChunks msgId "" chunks (aiStart room aiName msgId t st0))).chat
      = handleBulkMessages [aiFinalMsg room aiName (specFinalContent chunks) tEnd] chatInit
    rw [show ∀ s : AIState, (aiComplete msgId room aiName (specFinalContent chunks) tEnd
        s).chat = handleBulkMessages
          [aiFinalMsg room aiName (specFinalContent chunks) tEnd] s.chat from fun s => rfl]
    rw [aiChunks_chat]
    show handleBulkMessages _ st0.chat = _
    rw [hch]
  refine ⟨?_, ?_, ?_, ?_, ?_, ?_, ?_⟩
  · show ((aiChunks msgId "" chunks (aiStart room aiName msgId t st0)).events
        ++ [AIEvent.complete msgId (specFinalContent chunks) aiName]).getLast? = _
    rw [List.getLast?_concat]
  · exact lookup_filter_self_none msgId _
  · rw [hchatC]
    show chatInit.buffer ++ [aiFinalMsg room aiName (specFinalContent chunks) tEnd] = _
    rfl
  · rw [hchatC]
    exact loadMessages_after_flush_single
      (aiFinalMsg room aiName (specFinalContent chunks) tEnd) rfl
  · show ((aiChunks msgId "" chunks (aiStart room aiName msgId t st0)).events
        ++ [AIEvent.error msgId errMsg aiName]).getLast? = _
    rw [List.getLast?_concat]
  · exact lookup_filter_self_none msgId _
  · show (aiChunks msgId "" chunks (aiStart room aiName msgId t st0)).chat = st0.chat
    rw [aiChunks_chat]
    rfl

/-- C7 witness: the amended statement instantiated on the fixture run
with the claim's three chunks. -/
theorem handleAIResponse_spec_witness :
    ((handleAIResponse "R1" "wayneAI" "id1" ["Hel", "lo ", " world"] 1 2 aiInit).events.getLast?
      = some (AIEvent.complete "id1" (specFinalContent ["Hel", "lo ", " world"]) "wayneAI")) ∧
    ((loadMessages
        (flushCommit
          (handleAIResponse "R1" "wayneAI" "id1" ["Hel", "lo ", " world"] 1 2 aiInit).chat.buffer
          (flushBegin
            (handleAIResponse "R1" "wayneAI" "id1" ["Hel", "lo ", " world"] 1 2 aiInit).chat))
        "R1" none 30).messages
      = [aiFinalMsg "R1" "wayneAI" (specFinalContent ["Hel", "lo ", " world"]) 2]) := by
  have h := handleAIResponse_spec "R1" "wayneAI" "id1" "boom" ["Hel", "lo ", " world"] 1 2
    aiInit rfl
  exact ⟨h.1, h.2.2.2.1⟩

/-- Connection status in the duplicate-login handoff: `active` after
registration, `pending d` once a duplicate login has been notified
(`d` the deadline of the scheduled takeover timer), `terminated` after
the forced disconnect. -/
inductive CStatus where
  | active
  | pending (deadline : Nat)
  | terminated
deriving DecidableEq, Repr

/-- An event emitted to one socket: event name, reason payload, and
emission time in milliseconds. -/
structure CEvent where
  name : String
  reason : String
  time : Nat
deriving DecidableEq, Repr

/-- One tracked socket: socket id, user id, status, and the events
delivered to it, in order. -/
structure CSock where
  sid : String
  uid : String
  status : CStatus
  events : List CEvent
deriving DecidableEq, Repr

/-- Per-process connection-coordination state: the current time, the
tracked sockets, and the `connectedUsers` map (user id to socket id). -/
structure CState where
  now : Nat
  socks : List CSock
  userMap : List (String × String)
deriving DecidableEq, Repr

/-- Fresh process state. -/
def cInit : CState := ⟨0, [], []⟩

/-- `DUPLICATE_LOGIN_TIMEOUT` of `chat.js`. -/
def graceMs : Nat := 10000

/-- The connection handler of `chat.js`: when `connectedUsers` already
holds a socket for the user, that socket receives `duplicate_login` and
a takeover timer for `t + 10s` is scheduled (a socket already pending
keeps the earlier of the two deadlines — the earlier timer fires
first); the new socket is registered active and `connectedUsers` is
pointed at it. The marking of the previous socket: `duplicate_login`
is emitted and the takeover deadline is recorded (keeping an earlier
already-scheduled deadline, whose timer fires first). -/
def markPending (prevSid : String) (t : Nat) (k : CSock) : CSock :=
  if k.sid = prevSid then
    { k with
        status := match k.status with
          | CStatus.pending d => CStatus.pending (min d (t + graceMs))
          | _ => CStatus.pending (t + graceMs),
        events := k.events ++ [⟨"duplicate_login", "", t⟩] }
  else k

def connectSock (uid sid : String) (t : Nat) (s : CState) : CState :=
  let marked := match s.userMap.lookup uid with
    | some prevSid => s.socks.map (markPending prevSid t)
    | none => s.socks
  { now := t,
    socks := marked ++ [⟨sid, uid, CStatus.active, []⟩],
    userMap := setSock uid sid s.userMap }

/-- The takeover timer firing at its deadline: the pending socket
receives the terminal `session_ended` with reason `duplicate_login`
and is disconnected. -/
def fireMark (sid : String) (d : Nat) (k : CSock) : CSock :=
  if k.sid = sid then
    { k with status := CStatus.terminated,
             events := k.events ++ [⟨"session_ended", "duplicate_login", d⟩] }
  else k

/-- The takeover timer firing: applied to every tracked socket (socket
ids are unique, so exactly the pending socket is terminated). -/
def fireTimeout (sid : String) (d : Nat) (s : CState) : CState :=
  { s with now := d, socks := s.socks.map (fireMark sid d) }

/-- Room fan-out at time `t`: every socket that is not disconnected
receives the message event (socket.io delivers nothing to a
disconnected socket). -/
def deliverMark (content : String) (t : Nat) (k : CSock) : CSock :=
  if k.status = CStatus.terminated then k
  else { k with events := k.events ++ [⟨"message", content, t⟩] }

/-- Room fan-out applied to every tracked socket. -/
def deliverAll (content : String) (t : Nat) (s : CState) : CState :=
  { s with now := t, socks := s.socks.map (deliverMark content t) }

/-- Status of the socket with the given id, if tracked. -/
def sockStatus (s : CState) (sid : String) : Option CStatus :=
  (s.socks.find? (fun k => k.sid == sid)).map (fun k => k.status)

/-- Steps of the duplicate-login system: a (fresh-socket) connection
for a user, a takeover timer firing at its deadline, and a room
broadcast. Time never moves backwards. -/
inductive CStep : CState → CState → Prop where
  | connect (uid sid : String) (t : Nat) (s : CState) :
      s.now ≤ t → (∀ k ∈ s.socks, k.sid ≠ sid) → CStep s (connectSock uid sid t s)
  | fire (sid : String) (d : Nat) (s : CState) :
      sockStatus s sid = some (CStatus.pending d) → s.now ≤ d →
      CStep s (fireTimeout sid d s)
  | deliver (content : String) (t : Nat) (s : CState) :
      s.now ≤ t → CStep s (deliverAll content t s)

/-- States reachable from a fresh process. -/
inductive CReach : CState → Prop where
  | init : CReach cInit
  | step {s t : CState} : CReach s → CStep s t → CReach t

/-- Invariant of the duplicate-login handoff: socket ids are unique;
every active socket is the `connectedUsers` target for its user and
vice versa; every pending socket carries a `duplicate_login`
notification whose grace window covers its deadline; every terminated
socket ends with the terminal `session_ended` carrying reason
`duplicate_login`, emitted within the grace window of a
`duplicate_login` notification it received. -/
def CInv (s : CState) : Prop :=
  (s.socks.map (fun k => k.sid)).Nodup ∧
  (∀ k ∈ s.socks, k.status = CStatus.active → s.userMap.lookup k.uid = some k.sid) ∧
  (∀ u sid, s.userMap.lookup u = some sid →
     ∃ k ∈ s.socks, k.sid = sid ∧ k.uid = u ∧ k.status = CStatus.active) ∧
  (∀ k ∈ s.socks, ∀ d, k.status = CStatus.pending d →
     ∃ e ∈ k.events, e.name = "duplicate_login" ∧ d ≤ e.time + graceMs) ∧
  (∀ k ∈ s.socks, k.status = CStatus.terminated →
     ∃ e, k.events.getLast? = some e ∧ e.name = "session_ended" ∧
       e.reason = "duplicate_login" ∧
       ∃ e0 ∈ k.events, e0.name = "duplicate_login" ∧ e.time ≤ e0.time + graceMs)

theorem markPending_sid (p : String) (t : Nat) (k : CSock) :
    (markPending p t k).sid = k.sid := by
  unfold markPending; split <;> rfl

theorem markPending_uid (p : String) (t : Nat) (k : CSock) :
    (markPending p t k).uid = k.uid := by
  unfold markPending; split <;> rfl

theorem markPending_of_ne (p : String) (t : Nat) (k : CSock) (h : k.sid ≠ p) :
    markPending p t k = k := by
  unfold markPending; rw [if_neg h]

theorem markPending_not_active (p : String) (t : Nat) (k : CSock) (h : k.sid = p) :
    (markPending p t k).status ≠ CStatus.active := by
  unfold markPending
  rw [if_pos h]
  cases k.status <;> simp

theorem markPending_not_terminated (p : String) (t : Nat) (k : CSock) (h : k.sid = p) :
    (markPending p t k).status ≠ CStatus.terminated := by
  unfold markPending
  rw [if_pos h]
  cases k.status <;> simp

theorem fireMark_sid (sid : String) (d : Nat) (k : CSock) :
    (fireMark sid d k).sid = k.sid := by
  unfold fireMark; split <;> rfl

theorem fireMark_uid (sid : String) (d : Nat) (k : CSock) :
    (fireMark sid d k).uid = k.uid := by
  unfold fireMark; split <;> rfl

theorem fireMark_of_ne (sid : String) (d : Nat) (k : CSock) (h : k.sid ≠ sid) :
    fireMark sid d k = k := by
  unfold fireMark; rw [if_neg h]

theorem deliverMark_sid (c : String) (t : Nat) (k : CSock) :
    (deliverMark c t k).sid = k.sid := by
  unfold deliverMark; split <;> rfl

theorem deliverMark_uid (c : String) (t : Nat) (k : CSock) :
    (deliverMark c t k).uid = k.uid := by
  unfold deliverMark; split <;> rfl

theorem deliverMark_status (c : String) (t : Nat) (k : CSock) :
    (deliverMark c t k).status = k.status := by
  unfold deliverMark; split <;> rfl

theorem deliverMark_events_sub (c : String) (t : Nat) (k : CSock) :
    ∀ e ∈ k.events, e ∈ (deliverMark c t k).events := by
  intro e he
  unfold deliverMark
  split
  · exact he
  · exact List.mem_append_left _ he

theorem sid_map_eq {f : CSock → CSock} (hf : ∀ k, (f k).sid = k.sid) (l : List CSock) :
    (l.map f).map (fun k => k.sid) = l.map (fun k => k.sid) := by
  rw [List.map_map]
  exact List.map_congr_left (fun k _ => hf k)

theorem markPending_pending_le (p : String) (t : Nat) (k : CSock) (hp : k.sid = p) :
    ∀ d, (markPending p t k).status = CStatus.pending d → d ≤ t + graceMs := by
  intro d hd
  unfold markPending at hd
  rw [if_pos hp] at hd
  cases hks : k.status with
  | pending d0 =>
    rw [hks] at hd
    have hd2 : CStatus.pending (min d0 (t + graceMs)) = CStatus.pending d := hd
    cases hd2
    exact Nat.min_le_right _ _
  | active =>
    rw [hks] at hd
    have hd2 : CStatus.pending (t + graceMs) = CStatus.pending d := hd
    cases hd2
    exact Nat.le_refl _
  | terminated =>
    rw [hks] at hd
    have hd2 : CStatus.pending (t + graceMs) = CStatus.pending d := hd
    cases hd2
    exact Nat.le_refl _

theorem cInv_init : CInv cInit := by
  refine ⟨by simp [cInit], ?_, ?_, ?_, ?_⟩
  · intro k hk; simp [cInit] at hk
  · intro u sid2 hu; simp [cInit, List.lookup] at hu
  · intro k hk; simp [cInit] at hk
  · intro k hk; simp [cInit] at hk

theorem cInv_connect (s : CState) (h : CInv s) (uid sid : String) (t : Nat)
    (hfresh : ∀ k ∈ s.socks, k.sid ≠ sid) : CInv (connectSock uid sid t s) := by
  obtain ⟨hnd, ham, hma, hpend, hterm⟩ := h
  unfold connectSock
  cases hl : s.userMap.lookup uid with
  | none =>
    refine ⟨?_, ?_, ?_, ?_, ?_⟩
    · rw [List.map_append]
      refine List.Nodup.append hnd (by simp) (List.disjoint_left.mpr ?_)
      intro a ha
      rcases List.mem_map.mp ha with ⟨k, hk, hke⟩
      simp only [List.map_cons, List.map_nil, List.mem_singleton]
      rw [← hke]
      exact hfresh k hk
    · intro k hk hact
      rcases List.mem_append.mp hk with hk | hk
      · have hne : k.uid ≠ uid := by
          intro he
          have hh := ham k hk hact
          rw [he, hl] at hh
          exact Option.noConfusion hh
        rw [lookup_setSock_ne sid s.userMap hne]
        exact ham k hk hact
      · simp only [List.mem_singleton] at hk
        subst hk
        exact lookup_setSock_self uid sid s.userMap
    · intro u sid2 hu
      by_cases hue : u = uid
      · subst hue
        rw [lookup_setSock_self u sid s.userMap] at hu
        have hse : sid2 = sid := by simpa using hu.symm
        subst hse
        exact ⟨⟨sid2, u, CStatus.active, []⟩, List.mem_append_right _ (by simp),
          rfl, rfl, rfl⟩
      · rw [lookup_setSock_ne sid s.userMap hue] at hu
        obtain ⟨k, hk, h1, h2, h3⟩ := hma u sid2 hu
        exact ⟨k, List.mem_append_left _ hk, h1, h2, h3⟩
    · intro k hk d hkp
      rcases List.mem_append.mp hk with hk | hk
      · exact hpend k hk d hkp
      · simp only [List.mem_singleton] at hk
        subst hk
        exact absurd hkp (by simp)
    · intro k hk hkt
      rcases List.mem_append.mp hk with hk | hk
      · exact hterm k hk hkt
      · simp only [List.mem_singleton] at hk
        subst hk
        exact absurd hkt (by simp)
  | some prevSid =>
    obtain ⟨kp, hkpmem, hkpsid, hkpuid, hkpact⟩ := hma uid prevSid hl
    have hinj := List.inj_on_of_nodup_map hnd
    refine ⟨?_, ?_, ?_, ?_, ?_⟩
    · rw [List.map_append, sid_map_eq (markPending_sid prevSid t)]
      refine List.Nodup.append hnd (by simp) (List.disjoint_left.mpr ?_)
      intro a ha
      rcases List.mem_map.mp ha with ⟨k, hk, hke⟩
      simp only [List.map_cons, List.map_nil, List.mem_singleton]
      rw [← hke]
      exact hfresh k hk
    · intro k2 hk2 hact
      rcases List.mem_append.mp hk2 with hk2 | hk2
      · rcases List.mem_map.mp hk2 with ⟨k, hk, hke⟩
        by_cases hp : k.sid = prevSid
        · rw [← hke] at hact
          exact absurd hact (markPending_not_active prevSid t k hp)
        · rw [← hke, markPending_of_ne prevSid t k hp] at hact ⊢
          have hne : k.uid ≠ uid := by
            intro he
            have hh := ham k hk hact
            rw [he, hl] at hh
            exact hp (by simpa using hh.symm)
          rw [lookup_setSock_ne sid s.userMap hne]
          exact ham k hk hact
      · simp only [List.mem_singleton] at hk2
        subst hk2
        exact lookup_setSock_self uid sid s.userMap
    · intro u sid2 hu
      by_cases hue : u = uid
      · subst hue
        rw [lookup_setSock_self u sid s.userMap] at hu
        have hse : sid2 = sid := by simpa using hu.symm
        subst hse
        exact ⟨⟨sid2, u, CStatus.active, []⟩, List.mem_append_right _ (by simp),
          rfl, rfl, rfl⟩
      · rw [lookup_setSock_ne sid s.userMap hue] at hu
        obtain ⟨k, hk, h1, h2, h3⟩ := hma u sid2 hu
        have hp : k.sid ≠ prevSid := by
          intro he
          have hkkp : k = kp := hinj hk hkpmem (by rw [he, hkpsid])
          apply hue
          rw [← h2, hkkp, hkpuid]
        refine ⟨k, List.mem_append_left _ (List.mem_map.mpr ⟨k, hk, ?_⟩), h1, h2, h3⟩
        exact markPending_of_ne prevSid t k hp
    · intro k2 hk2 d hkp2
      rcases List.mem_append.mp hk2 with hk2 | hk2
      · rcases List.mem_map.mp hk2 with ⟨k, hk, hke⟩
        by_cases hp : k.sid = prevSid
        · subst hke
          refine ⟨⟨"duplicate_login", "", t⟩, ?_, rfl, ?_⟩
          · unfold markPending
            rw [if_pos hp]
            exact List.mem_append_right _ (by simp)
          · exact markPending_pending_le prevSid t k hp d hkp2
        · rw [← hke, markPending_of_ne prevSid t k hp] at hkp2 ⊢
          exact hpend k hk d hkp2
      · simp only [List.mem_singleton] at hk2
        subst hk2
        exact absurd hkp2 (by simp)
    · intro k2 hk2 hkt
      rcases List.mem_append.mp hk2 with hk2 | hk2
      · rcases List.mem_map.mp hk2 with ⟨k, hk, hke⟩
        by_cases hp : k.sid = prevSid
        · rw [← hke] at hkt
          exact absurd hkt (markPending_not_terminated prevSid t k hp)
        · rw [← hke, markPending_of_ne prevSid t k hp] at hkt ⊢
          exact hterm k hk hkt
      · simp only [List.mem_singleton] at hk2
        subst hk2
        exact absurd hkt (by simp)

theorem cInv_fire (s : CState) (h : CInv s) (sid : String) (d : Nat)
    (hst : sockStatus s sid = some (CStatus.pending d)) : CInv (fireTimeout sid d s) := by
  obtain ⟨hnd, ham, hma, hpend, hterm⟩ := h
  obtain ⟨k0, hfind, hk0stat⟩ := Option.map_eq_some'.mp hst
  have hk0mem : k0 ∈ s.socks := List.mem_of_find?_eq_some hfind
  have hk0sid : k0.sid = sid := by
    have hpr := List.find?_some hfind
    simpa using hpr
  have hinj := List.inj_on_of_nodup_map hnd
  have huniq : ∀ k ∈ s.socks, k.sid = sid → k = k0 := by
    intro k hk hks
    exact hinj hk hk0mem (by rw [hks, hk0sid])
  unfold fireTimeout
  refine ⟨?_, ?_, ?_, ?_, ?_⟩
  · rw [sid_map_eq (fireMark_sid sid d)]
    exact hnd
  · intro k2 hk2 hact
    rcases List.mem_map.mp hk2 with ⟨k, hk, hke⟩
    by_cases hks : k.sid = sid
    · rw [← hke] at hact
      unfold fireMark at hact
      rw [if_pos hks] at hact
      exact absurd hact (by simp)
    · rw [← hke, fireMark_of_ne sid d k hks] at hact ⊢
      exact ham k hk hact
  · intro u sid2 hu
    obtain ⟨k, hk, h1, h2, h3⟩ := hma u sid2 hu
    have hks : k.sid ≠ sid := by
      intro he
      have hkk0 := huniq k hk he
      rw [hkk0, hk0stat] at h3
      exact CStatus.noConfusion h3
    exact ⟨k, List.mem_map.mpr ⟨k, hk, fireMark_of_ne sid d k hks⟩, h1, h2, h3⟩
  · intro k2 hk2 dd hkp
    rcases List.mem_map.mp hk2 with ⟨k, hk, hke⟩
    by_cases hks : k.sid = sid
    · rw [← hke] at hkp
      unfold fireMark at hkp
      rw [if_pos hks] at hkp
      exact absurd hkp (by simp)
    · rw [← hke, fireMark_of_ne sid d k hks] at hkp ⊢
      exact hpend k hk dd hkp
  · intro k2 hk2 hkt
    rcases List.mem_map.mp hk2 with ⟨k, hk, hke⟩
    by_cases hks : k.sid = sid
    · have hkk0 : k = k0 := huniq k hk hks
      subst hke
      obtain ⟨e0, he0mem, he0name, he0le⟩ := hpend k hk d (by rw [hkk0]; exact hk0stat)
      refine ⟨⟨"session_ended", "duplicate_login", d⟩, ?_, rfl, rfl, ?_⟩
      · unfold fireMark
        rw [if_pos hks]
        exact List.getLast?_concat _
      · refine ⟨e0, ?_, he0name, he0le⟩
        unfold fireMark
        rw [if_pos hks]
        exact List.mem_append_left _ he0mem
    · rw [← hke, fireMark_of_ne sid d k hks] at hkt ⊢
      exact hterm k hk hkt

theorem cInv_deliver (s : CState) (h : CInv s) (content : String) (t : Nat) :
    CInv (deliverAll content t s) := by
  obtain ⟨hnd, ham, hma, hpend, hterm⟩ := h
  unfold deliverAll
  refine ⟨?_, ?_, ?_, ?_, ?_⟩
  · rw [sid_map_eq (deliverMark_sid content t)]
    exact hnd
  · intro k2 hk2 hact
    rcases List.mem_map.mp hk2 with ⟨k, hk, hke⟩
    rw [← hke, deliverMark_status] at hact
    rw [← hke, deliverMark_uid, deliverMark_sid]
    exact ham k hk hact
  · intro u sid2 hu
    obtain ⟨k, hk, h1, h2, h3⟩ := hma u sid2 hu
    refine ⟨deliverMark content t k, List.mem_map_of_mem _ hk, ?_, ?_, ?_⟩
    · rw [deliverMark_sid]; exact h1
    · rw [deliverMark_uid]; exact h2
    · rw [deliverMark_status]; exact h3
  · intro k2 hk2 dd hkp
    rcases List.mem_map.mp hk2 with ⟨k, hk, hke⟩
    rw [← hke, deliverMark_status] at hkp
    obtain ⟨e, he, hen, hel⟩ := hpend k hk dd hkp
    refine ⟨e, ?_, hen, hel⟩
    rw [← hke]
    exact deliverMark_events_sub content t k e he
  · intro k2 hk2 hkt
    rcases List.mem_map.mp hk2 with ⟨k, hk, hke⟩
    rw [← hke, deliverMark_status] at hkt
    have heq : deliverMark content t k = k := by
      unfold deliverMark
      rw [if_pos hkt]
    rw [← hke, heq]
    exact hterm k hk hkt

theorem cInv_step {s s2 : CState} (h : CInv s) (hs : CStep s s2) : CInv s2 := by
  cases hs with
  | connect uid sid t s h1 h2 => exact cInv_connect s h uid sid t h2
  | fire sid d s h1 h2 => exact cInv_fire s h sid d h1
  | deliver content t s h1 => exact cInv_deliver s h content t

theorem cInv_reach {s : CState} (h : CReach s) : CInv s := by
  induction h with
  | init => exact cInv_init
  | step hr hs ih => exact cInv_step ih hs

theorem len_le_one_of_const {α β : Type} (l : List α) (f : α → β) (c : β)
    (hnd : (l.map f).Nodup) (hall : ∀ x ∈ l, f x = c) : l.length ≤ 1 := by
  cases l with
  | nil => simp
  | cons a l2 =>
    cases l2 with
    | nil => simp
    | cons b l3 =>
      exfalso
      simp only [List.map_cons, List.nodup_cons, List.mem_cons, List.mem_map] at hnd
      exact hnd.1 (Or.inl (by
        rw [hall a (by simp), hall b (by simp)]))

/-- C6. In every reachable state of the duplicate-login system: (a) at
most one connection per user id is Active; (b) every terminated
connection ended with a terminal `session_ended` event whose reason is
`duplicate_login` — a reason the code itself distinguishes from network
loss (`isNetworkLoss` is false for it, so no spurious disconnect
messages are emitted) — and that event was emitted within the grace
window (`graceMs` = 10s) of a `duplicate_login` notification the
connection had received; (c) once terminated, a connection is carried
verbatim (same events) through every further step, so no further
messages are ever delivered to it. -/
theorem duplicate_login_handoff (s : CState) (hr : CReach s) :
    (∀ u : String,
      (s.socks.filter (fun k => k.uid == u && k.status == CStatus.active)).length ≤ 1) ∧
    (∀ k ∈ s.socks, k.status = CStatus.terminated →
      ∃ e, k.events.getLast? = some e ∧ e.name = "session_ended" ∧
        e.reason = "duplicate_login" ∧ isNetworkLoss e.reason = false ∧
        ∃ e0 ∈ k.events, e0.name = "duplicate_login" ∧ e.time ≤ e0.time + graceMs) ∧
    (∀ s2 : CState, CStep s s2 → ∀ k ∈ s.socks, k.status = CStatus.terminated →
      k ∈ s2.socks) := by
  obtain ⟨hnd, ham, hma, hpend, hterm⟩ := cInv_reach hr
  refine ⟨?_, ?_, ?_⟩
  · intro u
    have hsubl : (s.socks.filter
        (fun k => k.uid == u && k.status == CStatus.active)).Sublist s.socks :=
      List.filter_sublist _
    have hndF : ((s.socks.filter
        (fun k => k.uid == u && k.status == CStatus.active)).map
          (fun k => k.sid)).Nodup :=
      List.Nodup.sublist (hsubl.map _) hnd
    cases hlu : s.userMap.lookup u with
    | none =>
      have hempty : s.socks.filter (fun k => k.uid == u && k.status == CStatus.active)
          = [] := by
        refine List.eq_nil_iff_forall_not_mem.mpr ?_
        intro x hx
        obtain ⟨hxmem, hxcond⟩ := List.mem_filter.mp hx
        simp only [Bool.and_eq_true, beq_iff_eq] at hxcond
        have hlk := ham x hxmem hxcond.2
        rw [hxcond.1, hlu] at hlk
        exact Option.noConfusion hlk
      rw [hempty]
      simp
    | some c =>
      refine len_le_one_of_const _ (fun k => k.sid) c hndF ?_
      intro x hx
      obtain ⟨hxmem, hxcond⟩ := List.mem_filter.mp hx
      simp only [Bool.and_eq_true, beq_iff_eq] at hxcond
      have hlk := ham x hxmem hxcond.2
      rw [hxcond.1, hlu] at hlk
      exact (Option.some.inj hlk).symm
  · intro k hk hkt
    obtain ⟨e, h1, h2, h3, h4⟩ := hterm k hk hkt
    exact ⟨e, h1, h2, h3, by rw [h3]; decide, h4⟩
  · intro s2 hs k hk hkt
    cases hs with
    | connect uid sid t s h1 h2 =>
      unfold connectSock
      cases hl : s.userMap.lookup uid with
      | none => exact List.mem_append_left _ hk
      | some prevSid =>
        obtain ⟨kp, hkpmem, hkpsid, hkpuid, hkpact⟩ := hma uid prevSid hl
        have hinj := List.inj_on_of_nodup_map hnd
        have hkne : k.sid ≠ prevSid := by
          intro he
          have hkkp : k = kp := hinj hk hkpmem (by rw [he, hkpsid])
          rw [hkkp, hkpact] at hkt
          exact CStatus.noConfusion hkt
        refine List.mem_append_left _ (List.mem_map.mpr ⟨k, hk, ?_⟩)
        exact markPending_of_ne prevSid t k hkne
    | fire sid d s h1 h2 =>
      obtain ⟨k0, hfind, hk0stat⟩ := Option.map_eq_some'.mp h1
      have hk0mem : k0 ∈ s.socks := List.mem_of_find?_eq_some hfind
      have hk0sid : k0.sid = sid := by
        have hpr := List.find?_some hfind
        simpa using hpr
      have hinj := List.inj_on_of_nodup_map hnd
      have hkne : k.sid ≠ sid := by
        intro he
        have hkk0 : k = k0 := hinj hk hk0mem (by rw [he, hk0sid])
        rw [hkk0, hk0stat] at hkt
        exact CStatus.noConfusion hkt
      unfold fireTimeout
      exact List.mem_map.mpr ⟨k, hk, fireMark_of_ne sid d k hkne⟩
    | deliver content t s h1 =>
      unfold deliverAll
      refine List.mem_map.mpr ⟨k, hk, ?_⟩
      unfold deliverMark
      rw [if_pos hkt]

/-- Concrete duplicate-login run: user `u` connects socket `A` at time
0, connects socket `B` at time 5 (socket `A` receives
`duplicate_login` and a takeover deadline of 10005), and the takeover
timer fires at 10005. -/
def dupRun : CState :=
  fireTimeout "A" 10005 (connectSock "u" "B" 5 (connectSock "u" "A" 0 cInit))

theorem dupRun_reach : CReach dupRun :=
  CReach.step
    (CReach.step
      (CReach.step CReach.init
        (CStep.connect "u" "A" 0 cInit (by decide) (by intro k hk; simp [cInit] at hk)))
      (CStep.connect "u" "B" 5 _ (by decide) (by decide)))
    (CStep.fire "A" 10005 _ (by decide) (by decide))

/-- C6 witness: in the concrete run, user `u` has at most one active
connection, and socket `A` — terminated by the takeover — ends with
`session_ended`, reason `duplicate_login`, emitted at 10005, within
the 10s grace window of the `duplicate_login` notification it received
at time 5. -/
theorem duplicate_login_handoff_witness :
    ((dupRun.socks.filter
        (fun k => k.uid == "u" && k.status == CStatus.active)).length ≤ 1) ∧
    (∃ e, (⟨"A", "u", CStatus.terminated,
        [⟨"duplicate_login", "", 5⟩, ⟨"session_ended", "duplicate_login", 10005⟩]⟩
          : CSock).events.getLast? = some e ∧ e.name = "session_ended" ∧
      e.reason = "duplicate_login" ∧ isNetworkLoss e.reason = false ∧
      ∃ e0 ∈ (⟨"A", "u", CStatus.terminated,
          [⟨"duplicate_login", "", 5⟩, ⟨"session_ended", "duplicate_login", 10005⟩]⟩
            : CSock).events, e0.name = "duplicate_login" ∧ e.time ≤ e0.time + graceMs) := by
  have h := duplicate_login_handoff dupRun dupRun_reach
  refine ⟨h.1 "u", ?_⟩
  exact h.2.1 _ (by decide) (by decide)
